import Mathlib

/-!
Verification of the core B-tree engine of this repository (`src/btree/btree.c`)
against its natural-language specification.

The development shallowly embeds the fixed-format node operations
(`ff_find`, `ff_isunderflow`, `ff_make`, `ff_del`, `generic_move`), the
packed segment addresses (`segaddr_build` / `segaddr_addr` / `segaddr_shift` /
`segaddr_is_valid`), the node-descriptor cache lookup (`node_get`), the
restart policy of the operation state machines (`P_CHECK` in
`btree_get_kv_tick` / `btree_put_kv_tick` / `btree_del_kv_tick`), the
root-split handler (`btree_put_root_split_handle`), and a functional model of
the full lookup / insert / delete state machines (`btree_get_kv_tick`,
`btree_put_kv_tick` with `btree_put_makespace_phase`, `btree_del_kv_tick`
with `btree_del_resolve_underflow`), and proves the frozen claims about them.

Keys and values are byte strings (`List Nat`), compared exactly as
`m0_bufvec_cursor_cmp` compares them: byte-wise, memcmp style.
-/

set_option maxHeartbeats 1000000

/-! ## Byte strings and `m0_bufvec_cursor_cmp`

A key or value is a list of bytes.  `m0_bufvec_cursor_cmp` compares two
buffers byte by byte and returns the sign of the first differing byte
(memcmp); in the b-tree both buffers always have the same length
(`ff_ksize`), so the length-mismatch cases below are never exercised there. -/

abbrev Key := List Nat

abbrev Val := List Nat

abbrev Rec := Key × Val

/-- Byte-wise comparison of two buffers, as performed by
`m0_bufvec_cursor_cmp` (memcmp order). -/
def cmpBytes : List Nat → List Nat → Ordering
  | [], [] => .eq
  | [], _ :: _ => .lt
  | _ :: _, [] => .gt
  | a :: as, b :: bs =>
    match compare a b with
    | .eq => cmpBytes as bs
    | o => o

/-- Strict "less than" induced by `cmpBytes`. -/
def ltK (a b : Key) : Prop := cmpBytes a b = .lt

instance : DecidableRel ltK := fun a b => by
  unfold ltK; infer_instance

theorem cmpBytes_eq_iff : ∀ {a b : List Nat}, cmpBytes a b = .eq ↔ a = b := by
  intro a
  induction a with
  | nil => intro b; cases b <;> simp [cmpBytes]
  | cons x xs ih =>
    intro b
    cases b with
    | nil => simp [cmpBytes]
    | cons y ys =>
      simp only [cmpBytes]
      rcases h : compare x y with h' | h' | h' <;>
        simp_all [Nat.compare_eq_eq, Nat.compare_eq_lt, Nat.compare_eq_gt]
      · omega
      · omega

theorem cmpBytes_self (a : List Nat) : cmpBytes a a = .eq :=
  cmpBytes_eq_iff.mpr rfl

theorem cmpBytes_swap : ∀ {a b : List Nat}, cmpBytes b a = (cmpBytes a b).swap := by
  intro a
  induction a with
  | nil => intro b; cases b <;> simp [cmpBytes, Ordering.swap]
  | cons x xs ih =>
    intro b
    cases b with
    | nil => simp [cmpBytes, Ordering.swap]
    | cons y ys =>
      simp only [cmpBytes]
      rcases h : compare x y with h' | h' | h' <;>
        rcases h2 : compare y x with h2' | h2' | h2' <;>
        simp_all [Nat.compare_eq_eq, Nat.compare_eq_lt, Nat.compare_eq_gt,
          Ordering.swap] <;> omega

theorem ltK_irrefl (a : Key) : ¬ ltK a a := by
  simp [ltK, cmpBytes_self]

theorem ltK_asymm {a b : Key} (h : ltK a b) : ¬ ltK b a := by
  unfold ltK at *
  rw [cmpBytes_swap, h]
  simp [Ordering.swap]

theorem cmpBytes_gt_iff {a b : List Nat} : cmpBytes a b = .gt ↔ ltK b a := by
  unfold ltK
  rw [show cmpBytes b a = (cmpBytes a b).swap from cmpBytes_swap]
  cases h : cmpBytes a b <;> simp [Ordering.swap]

theorem ltK_trans : ∀ {a b c : Key}, ltK a b → ltK b c → ltK a c := by
  unfold ltK
  intro a
  induction a with
  | nil =>
    intro b c h1 h2
    cases b with
    | nil => simp [cmpBytes] at h1
    | cons y ys =>
      cases c with
      | nil => simp [cmpBytes] at h2
      | cons z zs => simp [cmpBytes]
  | cons x xs ih =>
    intro b c h1 h2
    cases b with
    | nil => simp [cmpBytes] at h1
    | cons y ys =>
      cases c with
      | nil => simp [cmpBytes] at h2
      | cons z zs =>
        simp only [cmpBytes] at h1 h2 ⊢
        rcases hxy : compare x y with _ | _ | _ <;> rw [hxy] at h1 <;>
          rcases hyz : compare y z with _ | _ | _ <;> rw [hyz] at h2
        · -- x < y, y < z
          have hxz : compare x z = .lt := by
            rw [Nat.compare_eq_lt] at hxy hyz ⊢
            omega
          rw [hxz]
        · -- x < y, y = z
          rw [Nat.compare_eq_eq] at hyz
          subst hyz
          rw [hxy]
        · exact absurd (show Ordering.gt = Ordering.lt from h2) (by decide)
        · -- x = y, y < z
          rw [Nat.compare_eq_eq] at hxy
          subst hxy
          rw [hyz]
        · -- x = y, y = z
          rw [Nat.compare_eq_eq] at hxy hyz
          subst hxy; subst hyz
          rw [show compare x x = Ordering.eq from by simp [Nat.compare_eq_eq]]
          exact ih (show cmpBytes xs ys = .lt from h1) (show cmpBytes ys zs = .lt from h2)
        · exact absurd (show Ordering.gt = Ordering.lt from h2) (by decide)
        · exact absurd (show Ordering.gt = Ordering.lt from h1) (by decide)
        · exact absurd (show Ordering.gt = Ordering.lt from h1) (by decide)
        · exact absurd (show Ordering.gt = Ordering.lt from h1) (by decide)

theorem ltK_of_cmp_ne_lt_ne_eq {a b : Key} (h1 : cmpBytes a b ≠ .lt)
    (h2 : a ≠ b) : ltK b a := by
  rcases h : cmpBytes a b with h' | h' | h'
  · exact absurd h h1
  · exact absurd (cmpBytes_eq_iff.mp h) h2
  · exact cmpBytes_gt_iff.mp h

theorem ltK_total (a b : Key) : ltK a b ∨ a = b ∨ ltK b a := by
  rcases h : cmpBytes a b with h' | h' | h'
  · exact .inl h
  · exact .inr (.inl (cmpBytes_eq_iff.mp h))
  · exact .inr (.inr (cmpBytes_gt_iff.mp h))

theorem ltK_ne {a b : Key} (h : ltK a b) : a ≠ b := by
  intro he; subst he; exact ltK_irrefl a h

/-! ## `ff_find`: binary search over the sorted key area of a fixed-format node

`ff_find` (btree.c) performs a binary search with `i = -1`,
`j = node_count(node)` and `m = (i + j) / 2`; it descends left on
`diff > 0`, right on `diff < 0` and stops on an exact match.  We shift the
lower bound by one (`ii = i + 1 : Nat`) so that all state is a natural
number, and run the loop on the list `ks` of searched keys (for a leaf all
record keys, for an internal node all but the last).  `fuel` bounds the
iteration count; every call supplies at least `j - ii` units, which is
enough because the interval shrinks at every step. -/

def ffFindLoop (ks : List Key) (k : Key) : Nat → Nat → Nat → Bool × Nat
  | _, j, 0 => (false, j)
  | ii, j, fuel + 1 =>
    if ii < j then
      let m := (ii + j - 1) / 2
      match cmpBytes (ks.getD m []) k with
      | .lt => ffFindLoop ks k (m + 1) j fuel
      | .gt => ffFindLoop ks k ii m fuel
      | .eq => (true, m)
    else (false, j)

/-- `ff_find` on the list of searched keys: returns
(exact-match?, resulting `slot.idx`). -/
def ff_find (ks : List Key) (k : Key) : Bool × Nat :=
  ffFindLoop ks k 0 ks.length (ks.length + 1)

/-- The lower-bound index: number of keys strictly below `k`.  On a sorted
list this is the least index whose key is `≥ k`. -/
def lbIdx (ks : List Key) (k : Key) : Nat :=
  (ks.takeWhile (fun a => decide (ltK a k))).length

theorem getD_eq_getElem {l : List Key} {n : Nat} (h : n < l.length) :
    l.getD n [] = l[n] := by
  simp [List.getD_eq_getElem?_getD, List.getElem?_eq_getElem h]

theorem lbIdx_le_length (ks : List Key) (k : Key) : lbIdx ks k ≤ ks.length := by
  unfold lbIdx
  induction ks with
  | nil => simp
  | cons a t ih =>
    by_cases h : ltK a k <;> simp [List.takeWhile, h] <;> omega

theorem lbIdx_eq (ks : List Key) (k : Key) :
    ∀ j, j ≤ ks.length → (∀ t, t < j → ltK (ks.getD t []) k) →
    (j < ks.length → ¬ ltK (ks.getD j []) k) → lbIdx ks k = j := by
  induction ks with
  | nil =>
    intro j hj _ _
    have hj0 : j = 0 := by simpa using hj
    subst hj0
    simp [lbIdx]
  | cons a t ih =>
    intro j hj hlt hge
    cases j with
    | zero =>
      have hna : ¬ ltK a k := by
        have := hge (by simp)
        simpa [List.getD_cons_zero] using this
      simp [lbIdx, List.takeWhile, hna]
    | succ j' =>
      have ha : ltK a k := by
        have := hlt 0 (by omega)
        simpa [List.getD_cons_zero] using this
      have hrec := ih j' (by simpa using hj)
        (fun s hs => by
          have := hlt (s + 1) (by omega)
          simpa [List.getD_cons_succ] using this)
        (fun hlen => by
          have := hge (by simpa using Nat.succ_lt_succ hlen)
          simpa [List.getD_cons_succ] using this)
      simp only [lbIdx, List.takeWhile_cons] at hrec ⊢
      rw [decide_eq_true ha]
      simp only [if_true, List.length_cons]
      omega

theorem mem_iff_getD {ks : List Key} {k : Key} :
    k ∈ ks ↔ ∃ t, t < ks.length ∧ ks.getD t [] = k := by
  constructor
  · intro h
    rcases List.getElem_of_mem h with ⟨t, ht, he⟩
    exact ⟨t, ht, by rw [getD_eq_getElem ht, he]⟩
  · rintro ⟨t, ht, he⟩
    rw [getD_eq_getElem ht] at he
    exact he ▸ List.getElem_mem ht

theorem pairwise_getD {ks : List Key} (hs : ks.Pairwise ltK) {s t : Nat}
    (hst : s < t) (ht : t < ks.length) : ltK (ks.getD s []) (ks.getD t []) := by
  rw [getD_eq_getElem (by omega), getD_eq_getElem ht]
  exact List.pairwise_iff_get.mp hs ⟨s, by omega⟩ ⟨t, ht⟩ hst

theorem ffFindLoop_spec (ks : List Key) (k : Key) (hs : ks.Pairwise ltK) :
    ∀ fuel ii j, j ≤ ks.length → ii ≤ j → j - ii ≤ fuel →
    (∀ t, t < ii → ltK (ks.getD t []) k) →
    (∀ t, j ≤ t → t < ks.length → ltK k (ks.getD t [])) →
    ffFindLoop ks k ii j fuel = (decide (k ∈ ks), lbIdx ks k) := by
  intro fuel
  induction fuel with
  | zero =>
    intro ii j hj hij hfuel hlo hhi
    have hij' : ii = j := by omega
    subst hij'
    simp only [ffFindLoop]
    have hnm : k ∉ ks := by
      rw [mem_iff_getD]
      rintro ⟨t, ht, he⟩
      rcases Nat.lt_or_ge t ii with h | h
      · exact ltK_ne (hlo t h) he
      · exact ltK_ne (hhi t h ht) he.symm
    rw [lbIdx_eq ks k ii hj (fun t ht => hlo t ht)
      (fun hlen => ltK_asymm (hhi ii (le_refl _) hlen))]
    simp [hnm]
  | succ fuel ih =>
    intro ii j hj hij hfuel hlo hhi
    simp only [ffFindLoop]
    by_cases hlt : ii < j
    · simp only [hlt, if_true]
      have hm1 : ii ≤ (ii + j - 1) / 2 := by
        rw [Nat.le_div_iff_mul_le (by omega)]
        omega
      have hm2 : (ii + j - 1) / 2 < j := by
        rw [Nat.div_lt_iff_lt_mul (by omega)]
        omega
      rcases hcmp : cmpBytes (ks.getD ((ii + j - 1) / 2) []) k with h | h | h
      · -- key at m is smaller: move lower bound up
        exact ih ((ii + j - 1) / 2 + 1) j hj (by omega) (by omega)
          (fun t ht => by
            rcases Nat.lt_or_ge t ii with h' | h'
            · exact hlo t h'
            · rcases Nat.lt_or_ge t ((ii + j - 1) / 2) with h'' | h''
              · exact ltK_trans (pairwise_getD hs h'' (by omega)) hcmp
              · have : t = (ii + j - 1) / 2 := by omega
                rw [this]; exact hcmp)
          hhi
      · -- exact match at m
        have hkm : ks.getD ((ii + j - 1) / 2) [] = k := cmpBytes_eq_iff.mp hcmp
        have hmem : k ∈ ks := mem_iff_getD.mpr ⟨_, by omega, hkm⟩
        rw [lbIdx_eq ks k ((ii + j - 1) / 2) (by omega)
          (fun t ht => by
            rcases Nat.lt_or_ge t ii with h' | h'
            · exact hlo t h'
            · exact hkm ▸ pairwise_getD hs ht (by omega))
          (fun _ => by rw [hkm]; exact ltK_irrefl k)]
        simp [hmem]
      · -- key at m is greater: move upper bound down
        have hgt : ltK k (ks.getD ((ii + j - 1) / 2) []) := cmpBytes_gt_iff.mp hcmp
        exact ih ii ((ii + j - 1) / 2) (by omega) (by omega) (by omega) hlo
          (fun t ht ht' => by
            rcases Nat.lt_or_ge t j with h' | h'
            · rcases Nat.eq_or_lt_of_le ht with h'' | h''
              · rw [← h'']; exact hgt
              · exact ltK_trans hgt (pairwise_getD hs h'' (by omega))
            · exact hhi t h' ht')
    · simp only [hlt, if_false]
      have hij' : ii = j := by omega
      subst hij'
      have hnm : k ∉ ks := by
        rw [mem_iff_getD]
        rintro ⟨t, ht, he⟩
        rcases Nat.lt_or_ge t ii with h | h
        · exact ltK_ne (hlo t h) he
        · exact ltK_ne (hhi t h ht) he.symm
      rw [lbIdx_eq ks k ii hj (fun t ht => hlo t ht)
        (fun hlen => ltK_asymm (hhi ii (le_refl _) hlen))]
      simp [hnm]

/-- On a strictly sorted key list, `ff_find` computes exact-match membership
and the lower-bound index. -/
theorem ff_find_eq (ks : List Key) (k : Key) (hs : ks.Pairwise ltK) :
    ff_find ks k = (decide (k ∈ ks), lbIdx ks k) :=
  ffFindLoop_spec ks k hs (ks.length + 1) 0 ks.length (le_refl _) (by omega)
    (by omega) (by omega) (fun t ht ht' => by omega)

theorem lbIdx_lt_spec (ks : List Key) (k : Key) :
    ∀ t, t < lbIdx ks k → ltK (ks.getD t []) k := by
  induction ks with
  | nil => simp [lbIdx]
  | cons a l ih =>
    intro t ht
    by_cases ha : ltK a k
    · simp only [lbIdx, List.takeWhile_cons] at ht
      rw [decide_eq_true ha] at ht
      simp only [if_true, List.length_cons] at ht
      cases t with
      | zero => simpa [List.getD_cons_zero] using ha
      | succ t' =>
        rw [List.getD_cons_succ]
        exact ih t' (by simpa [lbIdx] using ht)
    · simp only [lbIdx, List.takeWhile_cons] at ht
      rw [decide_eq_false ha] at ht
      simp at ht

theorem lbIdx_not_lt (ks : List Key) (k : Key) (h : lbIdx ks k < ks.length) :
    ¬ ltK (ks.getD (lbIdx ks k) []) k := by
  induction ks with
  | nil => simp at h
  | cons a l ih =>
    by_cases ha : ltK a k
    · have he : lbIdx (a :: l) k = lbIdx l k + 1 := by
        simp only [lbIdx, List.takeWhile_cons]
        rw [decide_eq_true ha]
        simp
      rw [he]
      rw [he] at h
      rw [List.getD_cons_succ]
      exact ih (by simpa using h)
    · have he : lbIdx (a :: l) k = 0 := by
        simp only [lbIdx, List.takeWhile_cons]
        rw [decide_eq_false ha]
        simp
      rw [he, List.getD_cons_zero]
      exact ha

/-! ## The fixed-format node layout, `ff_count`, `ff_isunderflow`, `ff_make`, `ff_del`

A fixed-format node body is modelled by its record array (`ff_used` entries
of `ff_ksize + ff_vsize` bytes each) and its level.  `ff_count` subtracts one
on internal nodes, where the last record's key is the unused sentinel and its
value addresses the rightmost child.  The capacity in records is
`cap = (2^ff_shift - sizeof ff_head) / (ff_ksize + ff_vsize)`; `ff_space`
returns `(cap - used) * rsize`, so `ff_isfit` (rsize ≤ space) is
`used < cap` and `ff_isoverflow` (space < rsize) is `used = cap`.  `cap` is
kept as an explicit parameter. -/

structure FFNodeL where
  recs : List Rec
  level : Nat

/-- `ff_count_rec`: the raw record count `ff_used`. -/
def ff_count_rec (n : FFNodeL) : Nat := n.recs.length

/-- `ff_count`: number of searched keys (`ff_used`, minus one on internal
nodes). -/
def ff_count (n : FFNodeL) : Nat :=
  if 0 < n.level then n.recs.length - 1 else n.recs.length

/-- The keys that `ff_find` actually probes: indices `0 .. ff_count - 1`. -/
def ffSearchedKeys (n : FFNodeL) : List Key :=
  (n.recs.map Prod.fst).take (ff_count n)

/-- `ff_find` run on a node: the loop bound `j` starts at `node_count`, so
the probed indices all lie inside the searched prefix. -/
def ff_find_node (n : FFNodeL) (k : Key) : Bool × Nat :=
  ff_find (ffSearchedKeys n) k

/-- `ff_isunderflow`: `rec_count = ff_used; if (predict && rec_count != 0)
rec_count--; return rec_count == 0;`.  Note that the level is not consulted. -/
def ff_isunderflow (n : FFNodeL) (predict : Bool) : Bool :=
  let rec_count := if predict && n.recs.length != 0 then n.recs.length - 1
                   else n.recs.length
  rec_count == 0

/-- `ff_isfit`: one more record of `ksize + vsize` bytes fits into the free
space. -/
def ff_isfit (cap : Nat) (recs : List Rec) : Prop := recs.length < cap

/-- `ff_make`: `memmove` the records from `idx` on one slot to the right and
increment `ff_used`.  The opened gap holds the bytes previously at `idx`
(records beyond the array are untracked, modelled by the empty record). -/
def ff_make (idx : Nat) (recs : List Rec) : List Rec :=
  recs.insertIdx idx (recs.getD idx ([], []))

/-- The caller (insert callback) then writes key and value through the slot
returned by `node_rec`. -/
def slotWrite (idx : Nat) (r : Rec) (recs : List Rec) : List Rec :=
  recs.set idx r

/-- `ff_del`: `memmove` the records after `idx` one slot to the left and
decrement `ff_used`. -/
def ff_del (idx : Nat) (recs : List Rec) : List Rec :=
  recs.eraseIdx idx

theorem set_insertIdx_self {α : Type} (l : List α) :
    ∀ (idx : Nat) (x r : α), idx ≤ l.length →
    (l.insertIdx idx x).set idx r = l.insertIdx idx r := by
  induction l with
  | nil =>
    intro idx x r h
    have : idx = 0 := by simpa using h
    subst this
    simp
  | cons a t ih =>
    intro idx x r h
    cases idx with
    | zero => simp [List.insertIdx]
    | succ i =>
      simp only [List.insertIdx_succ_cons, List.set_cons_succ]
      rw [ih i x r (by simpa using h)]

/-- C2: on a fixed-format node whose (searched) records are sorted by key,
with keys of the node's key size, `ff_find` sets `slot.idx` to the lowest
record index whose key is greater than or equal to the search key — or to
the number of searched keys when no such index exists — and returns `true`
iff some searched record's key equals the search key exactly.  (On an
internal node the last record's key is the unused sentinel and is outside
the searched range, as `ff_find` bounds the search by `node_count`.) -/
theorem c2_ff_find_contract (n : FFNodeL) (k : Key) (ksz : Nat)
    (hsorted : (ffSearchedKeys n).Pairwise ltK)
    (hsz : ∀ x ∈ ffSearchedKeys n, x.length = ksz)
    (hk : k.length = ksz) :
    (ff_find_node n k).2 ≤ (ffSearchedKeys n).length ∧
    (∀ t, t < (ff_find_node n k).2 → ltK ((ffSearchedKeys n).getD t []) k) ∧
    ((ff_find_node n k).2 < (ffSearchedKeys n).length →
      ¬ ltK ((ffSearchedKeys n).getD (ff_find_node n k).2 []) k) ∧
    ((ff_find_node n k).1 = true ↔ k ∈ ffSearchedKeys n) := by
  unfold ff_find_node
  rw [ff_find_eq _ _ hsorted]
  refine ⟨lbIdx_le_length _ _, lbIdx_lt_spec _ _, lbIdx_not_lt _ _, by simp⟩

/-- Witness for C2 at a concrete leaf node. -/
theorem c2_ff_find_contract_witness :
    ((ff_find_node ⟨[([0], [7]), ([2], [8])], 0⟩ [1]).2 ≤
      (ffSearchedKeys ⟨[([0], [7]), ([2], [8])], 0⟩).length ∧
    (∀ t, t < (ff_find_node ⟨[([0], [7]), ([2], [8])], 0⟩ [1]).2 →
      ltK ((ffSearchedKeys ⟨[([0], [7]), ([2], [8])], 0⟩).getD t []) [1]) ∧
    ((ff_find_node ⟨[([0], [7]), ([2], [8])], 0⟩ [1]).2 <
        (ffSearchedKeys ⟨[([0], [7]), ([2], [8])], 0⟩).length →
      ¬ ltK ((ffSearchedKeys ⟨[([0], [7]), ([2], [8])], 0⟩).getD
        (ff_find_node ⟨[([0], [7]), ([2], [8])], 0⟩ [1]).2 []) [1]) ∧
    ((ff_find_node ⟨[([0], [7]), ([2], [8])], 0⟩ [1]).1 = true ↔
      [1] ∈ ffSearchedKeys ⟨[([0], [7]), ([2], [8])], 0⟩)) :=
  c2_ff_find_contract ⟨[([0], [7]), ([2], [8])], 0⟩ [1] 1
    (by decide) (by decide) (by decide)

/-- C3 counterexample: an internal node (level 1) holding a single record.
Its record count `count_rec` is 1 ≤ 1, so the claim requires
`is_underflow(predict := false)` to be `true`; the code returns `false`
because it only compares the raw record count with zero and never looks at
the level. -/
theorem c3_counterexample :
    ff_isunderflow ⟨[([0], [1])], 1⟩ false = false ∧
    0 < (FFNodeL.mk [([0], [1])] 1).level ∧
    ff_count_rec ⟨[([0], [1])], 1⟩ ≤ 1 := by
  refine ⟨rfl, by decide, by decide⟩

/-- C3 (amended): `ff_isunderflow` with `predict = false` returns `true`
exactly when the record count `count_rec` is zero — for leaf and internal
nodes alike — and with `predict = true` it returns the value that
`predict = false` would return after one more record is removed
(`ff_del` at any valid index). -/
theorem c3_ff_isunderflow (n : FFNodeL) (idx : Nat) (hidx : idx < n.recs.length) :
    ff_isunderflow n false = (ff_count_rec n == 0) ∧
    ff_isunderflow n true =
      ff_isunderflow ⟨ff_del idx n.recs, n.level⟩ false := by
  constructor
  · simp [ff_isunderflow, ff_count_rec]
  · have hlen : (ff_del idx n.recs).length = n.recs.length - 1 := by
      simp [ff_del, List.length_eraseIdx, hidx]
    simp only [ff_isunderflow, hlen]
    have hpos : n.recs.length ≠ 0 := by
      intro h
      rw [h] at hidx
      omega
    simp [hpos]

/-- Witness for C3's amended theorem at a concrete input. -/
theorem c3_ff_isunderflow_witness :
    ff_isunderflow ⟨[([0], [1])], 1⟩ false =
      (ff_count_rec ⟨[([0], [1])], 1⟩ == 0) ∧
    ff_isunderflow ⟨[([0], [1])], 1⟩ true =
      ff_isunderflow ⟨ff_del 0 [([0], [1])], 1⟩ false :=
  c3_ff_isunderflow ⟨[([0], [1])], 1⟩ 0 (by decide)

/-- C9: `ff_make` at a valid index of a node with free space, followed by the
caller writing the new record into the opened gap and `ff_del` at the same
index, restores the record array (and hence the record count) exactly; this
round trip is what the insert callback-failure undo path relies on. -/
theorem c9_make_del_roundtrip (recs : List Rec) (idx : Nat) (r : Rec)
    (cap : Nat) (hidx : idx ≤ recs.length) (hfit : ff_isfit cap recs) :
    ff_del idx (slotWrite idx r (ff_make idx recs)) = recs ∧
    (slotWrite idx r (ff_make idx recs)).length = recs.length + 1 := by
  unfold ff_del slotWrite ff_make
  rw [set_insertIdx_self recs idx _ r hidx]
  exact ⟨List.eraseIdx_insertIdx idx recs, List.length_insertIdx idx recs hidx⟩

/-- Witness for C9 at a concrete node. -/
theorem c9_make_del_roundtrip_witness :
    ff_del 1 (slotWrite 1 ([5], [6]) (ff_make 1 [([0], [7]), ([2], [8])])) =
      [([0], [7]), ([2], [8])] ∧
    (slotWrite 1 ([5], [6]) (ff_make 1 [([0], [7]), ([2], [8])])).length =
      ([([0], [7]), ([2], [8])] : List Rec).length + 1 :=
  c9_make_del_roundtrip [([0], [7]), ([2], [8])] 1 ([5], [6]) 3
    (by decide) (by simp [ff_isfit])

/-! ## `segaddr`: packed 64-bit segment addresses

`segaddr_build(addr, shift)` packs a 512-byte-aligned pointer and a node
size shift into one 64-bit word: `as_core = (uint64_t)addr | (shift - 9)`.
`segaddr_addr` masks the low 9 bits off, `segaddr_shift` reads the low 4
bits, and `segaddr_is_valid` requires the reserved bits
`0xff000000000001f0` (bits 63–56 and 8–4) to be clear. -/

def NODE_SHIFT_MIN : Nat := 9

/-- `node_shift_is_valid`: `shift >= NODE_SHIFT_MIN && shift < NODE_SHIFT_MIN + 0x10`. -/
def node_shift_is_valid (s : Nat) : Prop :=
  NODE_SHIFT_MIN ≤ s ∧ s < NODE_SHIFT_MIN + 0x10

/-- `addr_is_aligned`: `((size_t)addr & ((1ULL << NODE_SHIFT_MIN) - 1)) == 0`. -/
def addr_is_aligned (p : Nat) : Prop := p % 2 ^ NODE_SHIFT_MIN = 0

/-- `segaddr_build`: `sa.as_core = ((uint64_t)addr) | (shift - NODE_SHIFT_MIN)`. -/
def segaddr_build (p : Nat) (s : Nat) : Nat := p ||| (s - NODE_SHIFT_MIN)

/-- `segaddr_is_valid`: `(0xff000000000001f0ull & as_core) == 0`. -/
def segaddr_is_valid (core : Nat) : Prop := 0xff000000000001f0 &&& core = 0

/-- `segaddr_addr`: `as_core & ~((1ULL << NODE_SHIFT_MIN) - 1)` (64-bit
complement). -/
def segaddr_addr (core : Nat) : Nat := core &&& (2 ^ 64 - 2 ^ NODE_SHIFT_MIN)

/-- `segaddr_shift`: `(as_core & 0xf) + NODE_SHIFT_MIN`. -/
def segaddr_shift (core : Nat) : Nat := (core &&& 0xf) + NODE_SHIFT_MIN

theorem tb_mul_add {n q d i : Nat} (hd : d < 2 ^ n) :
    (2 ^ n * q + d).testBit i =
      if i < n then d.testBit i else q.testBit (i - n) := by
  by_cases h : i < n
  · simp only [h, if_true]
    rw [Nat.testBit_to_div_mod, Nat.testBit_to_div_mod]
    have hsplit : 2 ^ n * q = 2 ^ i * (2 ^ (n - i) * q) := by
      rw [← Nat.mul_assoc, ← Nat.pow_add]
      congr 2
      omega
    rw [hsplit]
    rw [Nat.mul_comm (2 ^ i) (2 ^ (n - i) * q), Nat.add_comm]
    rw [Nat.add_mul_div_right _ _ (Nat.pos_pow_of_pos i (by omega))]
    have heven : (d / 2 ^ i + 2 ^ (n - i) * q) % 2 = d / 2 ^ i % 2 := by
      have h2 : 2 ∣ 2 ^ (n - i) * q := by
        apply Dvd.dvd.mul_right
        exact dvd_pow_self 2 (by omega)
      omega
    rw [heven]
  · simp only [h, if_false]
    rw [Nat.testBit_to_div_mod, Nat.testBit_to_div_mod]
    have hsplit : (2 ^ n * q + d) / 2 ^ i = q / 2 ^ (i - n) := by
      have h1 : (2 ^ n * q + d) / 2 ^ n = q := by
        rw [Nat.mul_comm, Nat.add_comm,
          Nat.add_mul_div_right _ _ (Nat.pos_pow_of_pos n (by omega))]
        simp [Nat.div_eq_of_lt hd]
      have h2 : 2 ^ i = 2 ^ n * 2 ^ (i - n) := by
        rw [← Nat.pow_add]; congr 1; omega
      rw [h2, ← Nat.div_div_eq_div_mul, h1]
    rw [hsplit]

theorem tb_mul {n q i : Nat} :
    (2 ^ n * q).testBit i = if i < n then false else q.testBit (i - n) := by
  have := tb_mul_add (n := n) (q := q) (d := 0) (i := i)
    (Nat.pos_pow_of_pos n (by omega))
  simpa using this

theorem lor_aligned {p d : Nat} (hp : p % 2 ^ 9 = 0) (hd : d < 2 ^ 9) :
    p ||| d = p + d := by
  obtain ⟨q, hq⟩ : ∃ q, p = 2 ^ 9 * q := ⟨p / 2 ^ 9, by omega⟩
  subst hq
  apply Nat.eq_of_testBit_eq
  intro i
  rw [Nat.testBit_lor, tb_mul, tb_mul_add hd]
  by_cases h : i < 9
  · simp [h]
  · have : d.testBit i = false :=
      Nat.testBit_lt_two_pow (by calc d < 2 ^ 9 := hd
                                   _ ≤ 2 ^ i := Nat.pow_le_pow_right (by omega) (by omega))
    simp [h, this]

/-- C8 counterexample: the 512-byte-aligned 64-bit pointer `2^63` together
with shift 9 satisfies `segaddr_build`'s preconditions, but the built
segment address has reserved bit 63 set and fails `segaddr_is_valid`
(the claim asserts validity for every aligned pointer). -/
theorem c8_counterexample :
    addr_is_aligned (2 ^ 63) ∧ node_shift_is_valid 9 ∧
    ¬ segaddr_is_valid (segaddr_build (2 ^ 63) 9) := by
  refine ⟨by norm_num [addr_is_aligned, NODE_SHIFT_MIN], ?_, ?_⟩
  · constructor <;> norm_num [NODE_SHIFT_MIN]
  · intro h
    have : (0xff000000000001f0 &&& (2 ^ 63 ||| (9 - 9) : Nat)) ≠ 0 := by decide
    exact this h

/-- C8 (amended): for every 64-bit pointer `p` aligned to 512 bytes whose
reserved high bits 63–56 are zero (`p < 2^56`) and every shift `s` with
`9 ≤ s < 25`, `segaddr_build p s` yields a valid segment address and the
accessors round-trip: `segaddr_addr` returns `p` and `segaddr_shift`
returns `s`. -/
theorem c8_segaddr_roundtrip (p s : Nat) (hal : addr_is_aligned p)
    (hhigh : p < 2 ^ 56) (hs : node_shift_is_valid s) :
    segaddr_is_valid (segaddr_build p s) ∧
    segaddr_addr (segaddr_build p s) = p ∧
    segaddr_shift (segaddr_build p s) = s := by
  obtain ⟨hs1, hs2⟩ := hs
  unfold NODE_SHIFT_MIN at hs1 hs2
  have hal' : p % 2 ^ 9 = 0 := hal
  have hd : s - 9 < 2 ^ 4 := by omega
  have hd9 : s - 9 < 2 ^ 9 := by omega
  have hbuild : segaddr_build p s = p + (s - 9) := by
    unfold segaddr_build NODE_SHIFT_MIN
    exact lor_aligned hal' hd9
  obtain ⟨q, hq⟩ : ∃ q, p = 2 ^ 9 * q := ⟨p / 2 ^ 9, by omega⟩
  have hq47 : q < 2 ^ 47 := by
    have : 2 ^ 9 * q < 2 ^ 9 * 2 ^ 47 := by
      rw [← Nat.pow_add]
      omega
    exact Nat.lt_of_mul_lt_mul_left this
  refine ⟨?_, ?_, ?_⟩
  · -- validity: all reserved bits of p + (s - 9) are clear
    unfold segaddr_is_valid
    rw [hbuild, hq]
    apply Nat.eq_of_testBit_eq
    intro i
    rw [Nat.testBit_land, Nat.zero_testBit]
    have hmask : (0xff000000000001f0 : Nat) = 2 ^ 56 * 0xff + 0x1f0 := by norm_num
    rw [hmask, tb_mul_add (by norm_num), tb_mul_add hd9]
    have h1f0 : (0x1f0 : Nat) = 2 ^ 4 * 0x1f := by norm_num
    by_cases h4 : i < 4
    · have : (0x1f0 : Nat).testBit i = false := by
        rw [h1f0, tb_mul]
        simp [h4]
      simp only [show i < 56 by omega, if_true, this, Bool.false_and]
    · by_cases h9 : i < 9
      · have : (s - 9).testBit i = false :=
          Nat.testBit_lt_two_pow (by
            calc s - 9 < 2 ^ 4 := hd
                 _ ≤ 2 ^ i := Nat.pow_le_pow_right (by omega) (by omega))
        simp [h9, this]
      · by_cases h56 : i < 56
        · have : (0x1f0 : Nat).testBit i = false :=
            Nat.testBit_lt_two_pow (by
              calc (0x1f0 : Nat) < 2 ^ 9 := by norm_num
                   _ ≤ 2 ^ i := Nat.pow_le_pow_right (by omega) (by omega))
          simp [h56, h9, this]
        · have : q.testBit (i - 9) = false :=
            Nat.testBit_lt_two_pow (by
              calc q < 2 ^ 47 := hq47
                   _ ≤ 2 ^ (i - 9) := Nat.pow_le_pow_right (by omega) (by omega))
          simp [h56, h9, this]
  · -- address round-trip
    unfold segaddr_addr NODE_SHIFT_MIN
    rw [hbuild, hq]
    apply Nat.eq_of_testBit_eq
    intro i
    rw [Nat.testBit_land, tb_mul_add hd9]
    have hmask2 : (2 ^ 64 - 2 ^ 9 : Nat) = 2 ^ 9 * (2 ^ 55 - 1) := by norm_num
    rw [hmask2, tb_mul, tb_mul]
    by_cases h9 : i < 9
    · simp [h9]
    · rw [Nat.testBit_two_pow_sub_one]
      by_cases h64 : i - 9 < 55
      · simp [h9, h64]
      · have : q.testBit (i - 9) = false :=
          Nat.testBit_lt_two_pow (by
            calc q < 2 ^ 47 := hq47
                 _ ≤ 2 ^ (i - 9) := Nat.pow_le_pow_right (by omega) (by omega))
        simp [h9, h64, this]
  · -- shift round-trip
    unfold segaddr_shift NODE_SHIFT_MIN
    rw [hbuild, hq]
    have : (2 ^ 9 * q + (s - 9)) &&& 0xf = s - 9 := by
      apply Nat.eq_of_testBit_eq
      intro i
      rw [Nat.testBit_land, tb_mul_add hd9]
      have hf : (0xf : Nat) = 2 ^ 4 - 1 := by norm_num
      rw [hf, Nat.testBit_two_pow_sub_one]
      by_cases h4 : i < 4
      · simp [h4, show i < 9 by omega]
      · have : (s - 9).testBit i = false :=
          Nat.testBit_lt_two_pow (by
            calc s - 9 < 2 ^ 4 := hd
                 _ ≤ 2 ^ i := Nat.pow_le_pow_right (by omega) (by omega))
        by_cases h9 : i < 9 <;> simp [h4, h9, this]
    rw [this]
    omega

/-- Witness for C8's amended theorem at a concrete aligned pointer. -/
theorem c8_segaddr_roundtrip_witness :
    segaddr_is_valid (segaddr_build 1024 10) ∧
    segaddr_addr (segaddr_build 1024 10) = 1024 ∧
    segaddr_shift (segaddr_build 1024 10) = 10 :=
  c8_segaddr_roundtrip 1024 10 (by norm_num [addr_is_aligned, NODE_SHIFT_MIN])
    (by norm_num) (by constructor <;> norm_num [NODE_SHIFT_MIN])

/-! ## `node_get`: the node-descriptor cache lookup

`node_get` consults the opaque back-pointer stored in the persistent node
header (`nt_opaque_get`).  If a descriptor for the requested address is
already loaded, a descriptor whose `n_delayed_free` flag is set makes the
operation report `EACCES` without touching the reference count; otherwise
the reference count is incremented (moving the descriptor back from the
LRU list if needed).  If no descriptor matches, a fresh one is allocated
with `n_ref = 1`.  The model is sequential, so the re-check of the opaque
pointer under `lru_lock` sees the same state as the first read. -/

def EACCES : Int := 13

structure NdDesc where
  n_addr : Nat
  n_ref : Nat
  n_delayed_free : Bool

/-- Result of `node_get`: the status code `no_op.o_sm.sm_rc` and the
descriptor state afterwards. -/
def node_get (hint : Option NdDesc) (addr : Nat) : Int × NdDesc :=
  match hint with
  | some nd =>
    if nd.n_addr = addr then
      if nd.n_delayed_free then
        (EACCES, nd)
      else
        (0, { nd with n_ref := nd.n_ref + 1 })
    else
      (0, ⟨addr, 1, false⟩)
  | none => (0, ⟨addr, 1, false⟩)

/-- C10: a cache `node_get` on an address whose node descriptor exists but
has `delayed_free` set does not increment the descriptor's reference count
and reports `EACCES` instead of handing the descriptor out again. -/
theorem c10_node_get_delayed_free (nd : NdDesc) (addr : Nat)
    (haddr : nd.n_addr = addr) (hdf : nd.n_delayed_free = true) :
    node_get (some nd) addr = (EACCES, nd) ∧
    (node_get (some nd) addr).2.n_ref = nd.n_ref := by
  simp [node_get, haddr, hdf]

/-- Witness for C10 at a concrete descriptor. -/
theorem c10_node_get_delayed_free_witness :
    node_get (some ⟨1024, 2, true⟩) 1024 = (EACCES, ⟨1024, 2, true⟩) ∧
    (node_get (some ⟨1024, 2, true⟩) 1024).2.n_ref =
      (NdDesc.mk 1024 2 true).n_ref :=
  c10_node_get_delayed_free ⟨1024, 2, true⟩ 1024 rfl rfl

/-! ## The restart policy (`P_CHECK` of the four operation state machines)

On a failed `path_check`, every operation executes
`oi->i_trial++; if (i_trial >= MAX_TRIALS) { if (flags & BOF_LOCKALL)
fail(-ETOOMANYREFS); else flags |= BOF_LOCKALL; }` and then retries the
descent (`P_SETUP` or `P_LOCKALL`).  The trial counter is never reset, so
after the third optimistic failure the lock-all flag is set, and a single
further failure — the first one under lock-all — already reports
`-ETOOMANYREFS`.  The same code appears in `btree_get_kv_tick`,
`btree_put_kv_tick`, `btree_del_kv_tick` and `btree_iter_kv_tick`. -/

def MAX_TRIALS : Nat := 3

def ETOOMANYREFS : Int := 109

structure ChkState where
  i_trial : Nat
  lockall : Bool

/-- One failed `path_check` at `P_CHECK`: bump the trial counter, escalate
or fail. -/
def check_fail_step (s : ChkState) : Except Int ChkState :=
  let t := s.i_trial + 1
  if MAX_TRIALS ≤ t then
    if s.lockall then .error (-ETOOMANYREFS)
    else .ok ⟨t, true⟩
  else .ok ⟨t, s.lockall⟩

/-- `n` consecutive failed `path_check`s starting from a fresh operation
(trial counter 0, lock-all flag clear). -/
def run_check_fails : Nat → Except Int ChkState
  | 0 => .ok ⟨0, false⟩
  | n + 1 =>
    match run_check_fails n with
    | .ok s => check_fail_step s
    | .error e => .error e

/-- C4 counterexample: the fourth consecutive check failure — that is, the
very first failure under the lock-all flag — already aborts the operation
with `-ETOOMANYREFS`.  The claim, as stated, requires three failed lock-all
trials (six failures in total) before this error. -/
theorem c4_counterexample :
    run_check_fails 3 = .ok ⟨3, true⟩ ∧
    run_check_fails 4 = .error (-ETOOMANYREFS) ∧
    run_check_fails 6 = .error (-ETOOMANYREFS) := by
  refine ⟨rfl, rfl, rfl⟩

/-- C4 (amended): at most 3 optimistic descent trials are made; when the
trial counter reaches `MAX_TRIALS = 3` the operation escalates by setting
the lock-all flag and retrying with the tree lock held across the descent.
The trial counter is not reset on escalation, so if the single lock-all
retry also fails its check, the operation fails with `-ETOOMANYREFS`
(rather than after three lock-all failures). -/
theorem c4_restart_policy (n : Nat) :
    (n < 3 → run_check_fails n = .ok ⟨n, false⟩) ∧
    (run_check_fails 3 = .ok ⟨3, true⟩) ∧
    (4 ≤ n → run_check_fails n = .error (-ETOOMANYREFS)) := by
  refine ⟨?_, rfl, ?_⟩
  · intro h
    interval_cases n <;> rfl
  · intro h
    induction n with
    | zero => omega
    | succ m ih =>
      rcases Nat.lt_or_ge m 4 with hm | hm
      · have : m = 3 := by omega
        subst this
        rfl
      · simp only [run_check_fails, ih hm]

/-- Witness for C4's amended theorem at a concrete trial count. -/
theorem c4_restart_policy_witness :
    ((4 : Nat) < 3 → run_check_fails 4 = .ok ⟨4, false⟩) ∧
    (run_check_fails 3 = .ok ⟨3, true⟩) ∧
    (4 ≤ 4 → run_check_fails 4 = .error (-ETOOMANYREFS)) :=
  c4_restart_policy 4

/-! ## `generic_move` with `D_RIGHT`/`NR_MAX`

With direction `D_RIGHT` and `nr = NR_MAX`, `generic_move` repeatedly takes
the last record of `src` and inserts it at index 0 of `tgt` until `src` is
empty, so it prepends all of `src` (in order) to `tgt`. -/

def moveMaxRight {α : Type} : List α → List α → List α × List α
  | [], tgt => ([], tgt)
  | x :: s, tgt =>
    moveMaxRight (x :: s).dropLast ((x :: s).getLast (by simp) :: tgt)
termination_by src _ => src.length
decreasing_by simp

theorem moveMaxRight_eq_aux {α : Type} :
    ∀ (n : Nat) (src tgt : List α), src.length ≤ n →
    moveMaxRight src tgt = ([], src ++ tgt) := by
  intro n
  induction n with
  | zero =>
    intro src tgt h
    have : src = [] := by
      cases src with
      | nil => rfl
      | cons a t => simp at h
    subst this
    simp [moveMaxRight]
  | succ m ih =>
    intro src tgt h
    cases src with
    | nil => simp [moveMaxRight]
    | cons x s =>
      rw [moveMaxRight]
      rw [ih _ _ (by simp at h ⊢; omega)]
      rw [show (x :: s).dropLast ++ (x :: s).getLast (by simp) :: tgt =
        ((x :: s).dropLast ++ [(x :: s).getLast (by simp)]) ++ tgt by simp]
      rw [List.dropLast_append_getLast (by simp)]

theorem moveMaxRight_eq {α : Type} (src tgt : List α) :
    moveMaxRight src tgt = ([], src ++ tgt) :=
  moveMaxRight_eq_aux src.length src tgt (le_refl _)

/-! ## `btree_put_root_split_handle`

When the makespace loop has split every level up to and including the root,
`btree_put_root_split_handle` runs with `lev->l_node` the persistent root
(holding the records the root split left behind), `lev->l_alloc` the left
half of that split, `oi->i_extra_node` a freshly allocated spare node, and
`new_rec = {promoted key, value = segaddr(lev->l_alloc)}`.  It raises the
root's level, moves the root's records into the spare via
`node_move(root, extra, D_RIGHT, NR_MAX)`, then writes two records into the
now-empty root: record 0 receives `new_rec`'s key and value, record 1
receives only the value `segaddr(i_extra_node)` (its key slot is the unused
sentinel position of an internal node and is never written).  Finally
`tree->t_height` is incremented.  The root's segment address is never
touched.  Addresses stored as record values are modelled as opaque byte
strings. -/

structure RootSplitCtx where
  rootRecs : List Rec
  rootLevel : Nat
  extraRecs : List Rec
  extraLevel : Nat
  rootAddr : Nat
  allocAddrVal : Val
  extraAddrVal : Val
  t_height : Nat

def btree_put_root_split_handle (newRec : Rec) (st : RootSplitCtx) :
    RootSplitCtx :=
  let curr := st.rootLevel
  let mv := moveMaxRight st.rootRecs st.extraRecs
  let rootRecs1 := mv.1
  let rootRecs2 := slotWrite 0 newRec (ff_make 0 rootRecs1)
  let gap := (ff_make 1 rootRecs2).getD 1 ([], [])
  let rootRecs3 :=
    slotWrite 1 (gap.1, st.extraAddrVal) (ff_make 1 rootRecs2)
  { st with
    rootRecs := rootRecs3
    rootLevel := curr + 1
    extraRecs := mv.2
    extraLevel := curr
    t_height := st.t_height + 1 }

/-- C6: a root split through `btree_put_root_split_handle` keeps the
persistent root address unchanged, moves the root's records into the extra
spare node (which also receives the old root level), raises the root's
level by one, leaves the root with exactly two records — the first holding
the promoted key with the left split node's address as value, the second
holding the extra node's address as value in the record whose key slot is
the unused sentinel — and increments `tree.t_height` by exactly one. -/
theorem c6_root_split_handle (newRec : Rec) (st : RootSplitCtx)
    (hextra : st.extraRecs = []) (hval : newRec.2 = st.allocAddrVal) :
    (btree_put_root_split_handle newRec st).rootAddr = st.rootAddr ∧
    (btree_put_root_split_handle newRec st).extraRecs = st.rootRecs ∧
    (btree_put_root_split_handle newRec st).extraLevel = st.rootLevel ∧
    (btree_put_root_split_handle newRec st).rootLevel = st.rootLevel + 1 ∧
    (btree_put_root_split_handle newRec st).rootRecs.length = 2 ∧
    ((btree_put_root_split_handle newRec st).rootRecs.getD 0 ([], [])) =
      (newRec.1, st.allocAddrVal) ∧
    ((btree_put_root_split_handle newRec st).rootRecs.getD 1 ([], [])).2 =
      st.extraAddrVal ∧
    (btree_put_root_split_handle newRec st).t_height = st.t_height + 1 := by
  obtain ⟨nk, nv⟩ := newRec
  simp only at hval
  subst hval
  unfold btree_put_root_split_handle
  rw [moveMaxRight_eq, hextra]
  simp [ff_make, slotWrite, List.insertIdx]

/-- Witness for C6 at a concrete pre-split state. -/
theorem c6_root_split_handle_witness :
    (btree_put_root_split_handle ([3], [60])
      ⟨[([5], [61]), ([9], [62])], 1, [], 0, 512, [60], [70], 2⟩).rootAddr =
      (RootSplitCtx.mk [([5], [61]), ([9], [62])] 1 [] 0 512 [60] [70] 2).rootAddr ∧
    (btree_put_root_split_handle ([3], [60])
      ⟨[([5], [61]), ([9], [62])], 1, [], 0, 512, [60], [70], 2⟩).extraRecs =
      [([5], [61]), ([9], [62])] ∧
    (btree_put_root_split_handle ([3], [60])
      ⟨[([5], [61]), ([9], [62])], 1, [], 0, 512, [60], [70], 2⟩).extraLevel = 1 ∧
    (btree_put_root_split_handle ([3], [60])
      ⟨[([5], [61]), ([9], [62])], 1, [], 0, 512, [60], [70], 2⟩).rootLevel = 1 + 1 ∧
    (btree_put_root_split_handle ([3], [60])
      ⟨[([5], [61]), ([9], [62])], 1, [], 0, 512, [60], [70], 2⟩).rootRecs.length = 2 ∧
    ((btree_put_root_split_handle ([3], [60])
      ⟨[([5], [61]), ([9], [62])], 1, [], 0, 512, [60], [70], 2⟩).rootRecs.getD 0 ([], [])) =
      (([3] : Key), ([60] : Val)) ∧
    ((btree_put_root_split_handle ([3], [60])
      ⟨[([5], [61]), ([9], [62])], 1, [], 0, 512, [60], [70], 2⟩).rootRecs.getD 1 ([], [])).2 =
      [70] ∧
    (btree_put_root_split_handle ([3], [60])
      ⟨[([5], [61]), ([9], [62])], 1, [], 0, 512, [60], [70], 2⟩).t_height = 2 + 1 :=
  c6_root_split_handle ([3], [60])
    ⟨[([5], [61]), ([9], [62])], 1, [], 0, 512, [60], [70], 2⟩ rfl rfl

/-! ## Functional model of the tree

The descents of `btree_get_kv_tick`, `btree_put_kv_tick` and
`btree_del_kv_tick` always reach a node through the child pointer chosen by
`ff_find` on the parent, so for the single-threaded functional claims the
segment is modelled as a tree: a leaf holds its record list, an internal
node holds its record list where each record's value is the child it
addresses (the last record's key being the unused sentinel).  `entsOf`
linearizes the leaf records in descent order. -/

inductive Btree where
  | leaf (recs : List Rec)
  | node (ents : List (Key × Btree))

theorem Btree.inductionOn (P : Btree → Prop)
    (hleaf : ∀ recs, P (.leaf recs))
    (hnode : ∀ ents, (∀ e ∈ ents, P e.2) → P (.node ents)) (t : Btree) :
    P t := by
  suffices h : ∀ n t, sizeOf t ≤ n → P t from h (sizeOf t) t (le_refl _)
  intro n
  induction n with
  | zero =>
    intro t ht
    cases t with
    | leaf recs => exact hleaf recs
    | node ents =>
      simp only [Btree.node.sizeOf_spec] at ht
      omega
  | succ m ih =>
    intro t ht
    cases t with
    | leaf recs => exact hleaf recs
    | node ents =>
      refine hnode ents (fun e he => ?_)
      refine ih e.2 ?_
      have h1 := List.sizeOf_lt_of_mem he
      obtain ⟨k, c⟩ := e
      simp only [Prod.mk.sizeOf_spec] at h1
      simp only [Btree.node.sizeOf_spec] at ht
      simp only
      omega

mutual

def entsOf : Btree → List Rec
  | .leaf recs => recs
  | .node ents => entsOfL ents

def entsOfL : List (Key × Btree) → List Rec
  | [] => []
  | e :: rest => entsOf e.2 ++ entsOfL rest

end

/-- The keys present in the tree (in descent order). -/
def treeKeys (t : Btree) : List Key := (entsOf t).map Prod.fst

theorem entsOfL_cons (e : Key × Btree) (l : List (Key × Btree)) :
    entsOfL (e :: l) = entsOf e.2 ++ entsOfL l := by
  simp [entsOfL]

theorem entsOfL_append (l1 l2 : List (Key × Btree)) :
    entsOfL (l1 ++ l2) = entsOfL l1 ++ entsOfL l2 := by
  induction l1 with
  | nil => simp [entsOfL]
  | cons e rest ih => simp [entsOfL, ih]

/-- Sorted-association-list lookup used as the specification of `get`. -/
def lkKV : List Rec → Key → Option Rec
  | [], _ => none
  | r :: rest, k => if r.1 = k then some r else lkKV rest k

/-- Sorted-association-list insert used as the specification of `put`:
the new record goes in front of the first record whose key is not below
`k`. -/
def insKV : List Rec → Key → Val → List Rec
  | [], k, v => [(k, v)]
  | r :: rest, k, v =>
    if ltK r.1 k then r :: insKV rest k v else (k, v) :: r :: rest

/-- Sorted-association-list erase used as the specification of `del`:
removes the first record whose key equals `k`. -/
def ersKV : List Rec → Key → List Rec
  | [], _ => []
  | r :: rest, k => if r.1 = k then rest else r :: ersKV rest k

theorem lkKV_append_left {l1 l2 : List Rec} {k : Key}
    (h : ∀ r ∈ l1, r.1 ≠ k) : lkKV (l1 ++ l2) k = lkKV l2 k := by
  induction l1 with
  | nil => simp
  | cons r rest ih =>
    simp only [List.cons_append, lkKV, List.append_eq]
    rw [if_neg (h r (by simp))]
    exact ih (fun r hr => h r (by simp [hr]))

theorem lkKV_append_right {l1 l2 : List Rec} {k : Key}
    (h : ∀ r ∈ l2, r.1 ≠ k) : lkKV (l1 ++ l2) k = lkKV l1 k := by
  induction l1 with
  | nil =>
    simp only [List.nil_append, lkKV]
    induction l2 with
    | nil => rfl
    | cons r rest ih =>
      simp only [lkKV]
      rw [if_neg (h r (by simp))]
      exact ih (fun r hr => h r (by simp [hr]))
  | cons r rest ih =>
    simp only [List.cons_append, lkKV, List.append_eq]
    by_cases he : r.1 = k
    · simp [he]
    · rw [if_neg he, if_neg he, ih]

theorem insKV_append_left {l1 l2 : List Rec} {k : Key} {v : Val}
    (h : ∀ r ∈ l1, ltK r.1 k) :
    insKV (l1 ++ l2) k v = l1 ++ insKV l2 k v := by
  induction l1 with
  | nil => simp
  | cons r rest ih =>
    simp only [List.cons_append, insKV, List.append_eq]
    rw [if_pos (h r (by simp))]
    rw [ih (fun r hr => h r (by simp [hr]))]

theorem insKV_head_not_lt {l : List Rec} {k : Key} {v : Val} {r : Rec}
    (h : ¬ ltK r.1 k) : insKV (r :: l) k v = (k, v) :: r :: l := by
  simp [insKV, h]

theorem ersKV_append_left {l1 l2 : List Rec} {k : Key}
    (h : ∀ r ∈ l1, r.1 ≠ k) : ersKV (l1 ++ l2) k = l1 ++ ersKV l2 k := by
  induction l1 with
  | nil => simp
  | cons r rest ih =>
    simp only [List.cons_append, ersKV, List.append_eq]
    rw [if_neg (h r (by simp))]
    rw [ih (fun r hr => h r (by simp [hr]))]

theorem ersKV_no_key {l : List Rec} {k : Key}
    (h : ∀ r ∈ l, r.1 ≠ k) : ersKV l k = l := by
  induction l with
  | nil => rfl
  | cons r rest ih =>
    simp only [ersKV]
    rw [if_neg (h r (by simp))]
    rw [ih (fun r hr => h r (by simp [hr]))]

theorem ersKV_append_right {l1 l2 : List Rec} {k : Key}
    (h : ∀ r ∈ l2, r.1 ≠ k) : ersKV (l1 ++ l2) k = ersKV l1 k ++ l2 := by
  induction l1 with
  | nil =>
    simp only [List.nil_append, ersKV]
    rw [ersKV_no_key h]
  | cons r rest ih =>
    simp only [List.cons_append, ersKV, List.append_eq]
    by_cases he : r.1 = k
    · simp [he]
    · simp only [if_neg he, ih]
      rfl

/-! ## Bounds and the well-formedness invariant

`WFT cap lo hi t` states that `t` is a well-formed (sub)tree all of whose
record keys lie in the half-open window `[lo, hi)` (`none` meaning
unbounded), with every node's record count at most `cap` (the fixed-format
record capacity) and internal nodes non-empty.  `WFE` walks an internal
node's record list: each record key is a delimiter strictly inside
`(lo, hi)`, the child stored in its value holds keys below it, the rest of
the chain holds keys at or above it; the last record's key is the unused
sentinel and carries no constraint.  The window is half open because the
descent follows the child at `idx + 1` on an exact delimiter match, so a
key equal to a delimiter lives in the subtree to the delimiter's right. -/

def obelow : Option Key → Key → Prop
  | none, _ => True
  | some l, k => ¬ ltK k l

def oabove : Key → Option Key → Prop
  | _, none => True
  | k, some h => ltK k h

def oblt : Option Key → Key → Prop
  | none, _ => True
  | some l, s => ltK l s

def keysIn (lo hi : Option Key) (k : Key) : Prop := obelow lo k ∧ oabove k hi

mutual

def WFT (cap : Nat) (lo hi : Option Key) : Btree → Prop
  | .leaf recs =>
    recs.length ≤ cap ∧ (recs.map Prod.fst).Pairwise ltK ∧
    ∀ r ∈ recs, keysIn lo hi r.1
  | .node ents =>
    0 < ents.length ∧ ents.length ≤ cap ∧ WFE cap lo hi ents

def WFE (cap : Nat) (lo hi : Option Key) : List (Key × Btree) → Prop
  | [] => False
  | [e] => WFT cap lo hi e.2
  | e :: rest =>
    oblt lo e.1 ∧ oabove e.1 hi ∧ WFT cap lo (some e.1) e.2 ∧
    WFE cap (some e.1) hi rest

end

theorem wfe_ne_nil {cap : Nat} {lo hi : Option Key} {ents : List (Key × Btree)}
    (h : WFE cap lo hi ents) : ents ≠ [] := by
  intro he
  subst he
  simp [WFE] at h

theorem wfe_cons_iff {cap : Nat} {lo hi : Option Key} {e : Key × Btree}
    {rest : List (Key × Btree)} (hne : rest ≠ []) :
    WFE cap lo hi (e :: rest) ↔
      oblt lo e.1 ∧ oabove e.1 hi ∧ WFT cap lo (some e.1) e.2 ∧
      WFE cap (some e.1) hi rest := by
  cases rest with
  | nil => exact absurd rfl hne
  | cons f r2 => simp [WFE]

/-! Order helpers combining strict and non-strict facts. -/

theorem ltK_of_lt_of_not_lt {a b c : Key} (h1 : ltK a b) (h2 : ¬ ltK c b) :
    ltK a c := by
  rcases ltK_total b c with h | h | h
  · exact ltK_trans h1 h
  · exact h ▸ h1
  · exact absurd h h2

theorem not_lt_of_lt_of_not_lt {l e r : Key} (h1 : ltK l e) (h2 : ¬ ltK r e) :
    ¬ ltK r l := by
  intro h
  exact h2 (ltK_trans h h1)

theorem obelow_of_oblt_not_lt {lo : Option Key} {e r : Key} (h1 : oblt lo e)
    (h2 : ¬ ltK r e) : obelow lo r := by
  cases lo with
  | none => trivial
  | some l => exact not_lt_of_lt_of_not_lt h1 h2

theorem oabove_trans {r e : Key} {hi : Option Key} (h1 : ltK r e)
    (h2 : oabove e hi) : oabove r hi := by
  cases hi with
  | none => trivial
  | some h => exact ltK_trans h1 h2

/-! Weakening of window bounds. -/

def loWeaker : Option Key → Option Key → Prop
  | none, _ => True
  | some a, some l => ltK a l ∨ a = l
  | some _, none => False

def hiWeaker : Option Key → Option Key → Prop
  | _, none => True
  | some h, some b => ltK h b ∨ h = b
  | none, some _ => False

theorem loWeaker_refl (lo : Option Key) : loWeaker lo lo := by
  cases lo with
  | none => trivial
  | some l => exact .inr rfl

theorem hiWeaker_refl (hi : Option Key) : hiWeaker hi hi := by
  cases hi with
  | none => trivial
  | some h => exact .inr rfl

theorem obelow_weaken {lo lo' : Option Key} {k : Key} (hw : loWeaker lo' lo)
    (h : obelow lo k) : obelow lo' k := by
  cases lo' with
  | none => trivial
  | some a =>
    cases lo with
    | none => exact absurd hw (by simp [loWeaker])
    | some l =>
      rcases hw with hw | hw
      · exact not_lt_of_lt_of_not_lt hw h
      · exact hw ▸ h

theorem oblt_weaken {lo lo' : Option Key} {s : Key} (hw : loWeaker lo' lo)
    (h : oblt lo s) : oblt lo' s := by
  cases lo' with
  | none => trivial
  | some a =>
    cases lo with
    | none => exact absurd hw (by simp [loWeaker])
    | some l =>
      rcases hw with hw | hw
      · exact ltK_trans hw h
      · exact hw ▸ h

theorem oabove_weaken {hi hi' : Option Key} {k : Key} (hw : hiWeaker hi hi')
    (h : oabove k hi) : oabove k hi' := by
  cases hi' with
  | none => trivial
  | some b =>
    cases hi with
    | none => exact absurd hw (by simp [hiWeaker])
    | some h2 =>
      rcases hw with hw | hw
      · exact ltK_trans h hw
      · exact hw ▸ h

theorem keysIn_weaken {lo hi lo' hi' : Option Key} {k : Key}
    (hlo : loWeaker lo' lo) (hhi : hiWeaker hi hi') (h : keysIn lo hi k) :
    keysIn lo' hi' k :=
  ⟨obelow_weaken hlo h.1, oabove_weaken hhi h.2⟩

theorem wfe_mono_aux {cap : Nat} (ents : List (Key × Btree))
    (hch : ∀ e ∈ ents, ∀ lo hi lo' hi', WFT cap lo hi e.2 →
      loWeaker lo' lo → hiWeaker hi hi' → WFT cap lo' hi' e.2) :
    ∀ lo hi lo' hi', WFE cap lo hi ents → loWeaker lo' lo →
      hiWeaker hi hi' → WFE cap lo' hi' ents := by
  induction ents with
  | nil => intro lo hi lo' hi' h; exact absurd rfl (wfe_ne_nil h)
  | cons e rest ih =>
    intro lo hi lo' hi' h hlo hhi
    cases rest with
    | nil =>
      simp only [WFE] at h ⊢
      exact hch e (by simp) lo hi lo' hi' h hlo hhi
    | cons f r2 =>
      rw [wfe_cons_iff (by simp)] at h ⊢
      obtain ⟨h1, h2, h3, h4⟩ := h
      refine ⟨oblt_weaken hlo h1, oabove_weaken hhi h2,
        hch e (by simp) lo (some e.1) lo' (some e.1) h3 hlo
          (hiWeaker_refl _), ?_⟩
      exact ih (fun e' he' => hch e' (by simp [he'])) (some e.1) hi
        (some e.1) hi' h4 (loWeaker_refl _) hhi

theorem wft_mono {cap : Nat} (t : Btree) :
    ∀ lo hi lo' hi', WFT cap lo hi t → loWeaker lo' lo → hiWeaker hi hi' →
    WFT cap lo' hi' t := by
  induction t using Btree.inductionOn with
  | hleaf recs =>
    intro lo hi lo' hi' h hlo hhi
    obtain ⟨h1, h2, h3⟩ := h
    exact ⟨h1, h2, fun r hr => keysIn_weaken hlo hhi (h3 r hr)⟩
  | hnode ents ih =>
    intro lo hi lo' hi' h hlo hhi
    obtain ⟨h1, h2, h3⟩ := h
    exact ⟨h1, h2, wfe_mono_aux ents
      (fun e he lo1 hi1 lo1' hi1' hw a b => ih e he lo1 hi1 lo1' hi1' hw a b)
      lo hi lo' hi' h3 hlo hhi⟩

theorem wfe_flat_aux {cap : Nat} (ents : List (Key × Btree))
    (hch : ∀ e ∈ ents, ∀ lo hi, WFT cap lo hi e.2 →
      ((entsOf e.2).map Prod.fst).Pairwise ltK ∧
      ∀ r ∈ entsOf e.2, keysIn lo hi r.1) :
    ∀ lo hi, WFE cap lo hi ents →
    ((entsOfL ents).map Prod.fst).Pairwise ltK ∧
    ∀ r ∈ entsOfL ents, keysIn lo hi r.1 := by
  induction ents with
  | nil => intro lo hi h; exact absurd rfl (wfe_ne_nil h)
  | cons e rest ih =>
    intro lo hi h
    cases rest with
    | nil =>
      simp only [WFE] at h
      have := hch e (by simp) lo hi h
      simpa [entsOfL] using this
    | cons f r2 =>
      rw [wfe_cons_iff (by simp)] at h
      obtain ⟨h1, h2, h3, h4⟩ := h
      have hc := hch e (by simp) lo (some e.1) h3
      have hr := ih (fun e' he' => hch e' (by simp [he'])) (some e.1) hi h4
      constructor
      · rw [entsOfL_cons, List.map_append, List.pairwise_append]
        refine ⟨hc.1, hr.1, ?_⟩
        intro a ha b hb
        simp only [List.mem_map] at ha hb
        obtain ⟨ra, hra, hae⟩ := ha
        obtain ⟨rb, hrb, hbe⟩ := hb
        subst hae
        subst hbe
        have h5 : ltK ra.1 e.1 := (hc.2 ra hra).2
        have h6 : obelow (some e.1) rb.1 := (hr.2 rb hrb).1
        exact ltK_of_lt_of_not_lt h5 h6
      · intro r hrm
        rw [entsOfL_cons, List.mem_append] at hrm
        rcases hrm with hrm | hrm
        · have := hc.2 r hrm
          exact ⟨this.1, oabove_trans this.2 h2⟩
        · have := hr.2 r hrm
          exact ⟨obelow_of_oblt_not_lt h1 this.1, this.2⟩

theorem wft_flat {cap : Nat} (t : Btree) :
    ∀ lo hi, WFT cap lo hi t →
    ((entsOf t).map Prod.fst).Pairwise ltK ∧
    ∀ r ∈ entsOf t, keysIn lo hi r.1 := by
  induction t using Btree.inductionOn with
  | hleaf recs =>
    intro lo hi h
    exact ⟨h.2.1, fun r hr => h.2.2 r hr⟩
  | hnode ents ih =>
    intro lo hi h
    have := wfe_flat_aux ents (fun e he lo' hi' hw => ih e he lo' hi' hw)
      lo hi h.2.2
    simpa [entsOf] using this

/-! ## Searched keys and the descent child index

The descent (`P_NEXTDOWN`) runs `node_find` on the internal node and, on an
exact match, increments the index before following the child pointer
(`lev->l_idx++; node_slot.s_idx++`), for lookup, insert and delete alike. -/

def sKeys (ents : List (Key × Btree)) : List Key :=
  (ents.map Prod.fst).dropLast

/-- The child index a descent follows inside an internal node: the
`ff_find` index, plus one on an exact match. -/
def childIdx (ents : List (Key × Btree)) (k : Key) : Nat :=
  let r := ff_find (sKeys ents) k
  if r.1 then r.2 + 1 else r.2

theorem sKeys_single (e : Key × Btree) : sKeys [e] = [] := by
  simp [sKeys]

theorem sKeys_cons {e f : Key × Btree} {r2 : List (Key × Btree)} :
    sKeys (e :: f :: r2) = e.1 :: sKeys (f :: r2) := by
  simp [sKeys]

theorem wfe_sKeys {cap : Nat} (ents : List (Key × Btree)) :
    ∀ lo hi, WFE cap lo hi ents →
    (sKeys ents).Pairwise ltK ∧ ∀ s ∈ sKeys ents, oblt lo s ∧ oabove s hi := by
  induction ents with
  | nil => intro lo hi h; exact absurd rfl (wfe_ne_nil h)
  | cons e rest ih =>
    intro lo hi h
    cases rest with
    | nil => simp [sKeys_single]
    | cons f r2 =>
      rw [wfe_cons_iff (by simp)] at h
      obtain ⟨h1, h2, h3, h4⟩ := h
      have hr := ih (some e.1) hi h4
      rw [sKeys_cons]
      constructor
      · rw [List.pairwise_cons]
        exact ⟨fun s hs => (hr.2 s hs).1, hr.1⟩
      · intro s hs
        rcases List.mem_cons.mp hs with hs | hs
        · exact hs ▸ ⟨h1, h2⟩
        · have := hr.2 s hs
          refine ⟨?_, this.2⟩
          cases lo with
          | none => trivial
          | some l => exact ltK_trans h1 this.1

theorem wfe_flat {cap : Nat} {ents : List (Key × Btree)} {lo hi : Option Key}
    (h : WFE cap lo hi ents) :
    ((entsOfL ents).map Prod.fst).Pairwise ltK ∧
    ∀ r ∈ entsOfL ents, keysIn lo hi r.1 :=
  wfe_flat_aux ents (fun e _ lo' hi' hw => wft_flat e.2 lo' hi' hw) lo hi h

theorem lbIdx_cons (a : Key) (S : List Key) (k : Key) :
    lbIdx (a :: S) k = if ltK a k then lbIdx S k + 1 else 0 := by
  by_cases h : ltK a k
  · simp only [lbIdx, List.takeWhile_cons]
    rw [decide_eq_true h]
    simp [h]
  · simp only [lbIdx, List.takeWhile_cons]
    rw [decide_eq_false h]
    simp [h]

theorem lbIdx_nil (k : Key) : lbIdx [] k = 0 := rfl

theorem lbIdx_zero_of_bounds {S : List Key} {k : Key}
    (h : ∀ s ∈ S, ltK k s) : lbIdx S k = 0 := by
  cases S with
  | nil => rfl
  | cons s S' =>
    rw [lbIdx_cons, if_neg (ltK_asymm (h s (by simp)))]

theorem childIdx_single (e : Key × Btree) (k : Key) : childIdx [e] k = 0 := by
  simp [childIdx, sKeys_single, ff_find, ffFindLoop]

theorem childIdx_cons {cap : Nat} {lo hi : Option Key} {e f : Key × Btree}
    {r2 : List (Key × Btree)} (k : Key)
    (h : WFE cap lo hi (e :: f :: r2)) :
    childIdx (e :: f :: r2) k =
      if ltK e.1 k ∨ e.1 = k then childIdx (f :: r2) k + 1 else 0 := by
  rw [wfe_cons_iff (by simp)] at h
  obtain ⟨h1, h2, h3, h4⟩ := h
  have hsk := wfe_sKeys (f :: r2) (some e.1) hi h4
  have hs1 : (sKeys (e :: f :: r2)).Pairwise ltK := by
    rw [sKeys_cons, List.pairwise_cons]
    exact ⟨fun s hs => (hsk.2 s hs).1, hsk.1⟩
  have hs1' : (e.1 :: sKeys (f :: r2)).Pairwise ltK := by
    rw [← sKeys_cons]
    exact hs1
  unfold childIdx
  rw [sKeys_cons, ff_find_eq _ _ hs1', ff_find_eq _ _ hsk.1]
  simp only [decide_eq_true_eq, lbIdx_cons, List.mem_cons]
  by_cases hlt : ltK e.1 k
  · have hne : ¬ (k = e.1) := fun he => ltK_irrefl k (he ▸ hlt)
    rw [if_pos (Or.inl hlt), if_pos hlt]
    by_cases hm : k ∈ sKeys (f :: r2)
    · rw [if_pos (Or.inr hm), if_pos hm]
    · rw [if_neg (not_or.mpr ⟨hne, hm⟩), if_neg hm]
  · by_cases heq : e.1 = k
    · have hnm : k ∉ sKeys (f :: r2) := by
        intro hm
        have := (hsk.2 k hm).1
        exact ltK_irrefl k (heq ▸ this)
      have hlb : lbIdx (sKeys (f :: r2)) k = 0 :=
        lbIdx_zero_of_bounds (fun s hs => heq ▸ (hsk.2 s hs).1)
      rw [if_pos (Or.inl heq.symm), if_pos (Or.inr heq), if_neg hlt,
        if_neg hnm, hlb]
    · have hkel : ltK k e.1 := ltK_of_cmp_ne_lt_ne_eq hlt (fun a => heq a)
      have hnm : k ∉ sKeys (f :: r2) := by
        intro hm
        have := (hsk.2 k hm).1
        exact ltK_asymm hkel this
      have hne : ¬ (k = e.1) := fun he => heq he.symm
      rw [if_neg (not_or.mpr ⟨hne, hnm⟩), if_neg hlt,
        if_neg (not_or.mpr ⟨hlt, heq⟩)]

/-! Child bounds inside an internal node: `lastB pre lo` is the delimiter
just left of the child (or the node's `lo`), `postB s post hi` is the
child's own delimiter `s` (or the node's `hi` when the child sits in the
last record, whose key is the unused sentinel). -/

def lastB (pre : List (Key × Btree)) (lo : Option Key) : Option Key :=
  match pre.getLast? with
  | some e => some e.1
  | none => lo

def postB (s : Key) (post : List (Key × Btree)) (hi : Option Key) :
    Option Key :=
  match post with
  | [] => hi
  | _ :: _ => some s

theorem lastB_nil (lo : Option Key) : lastB [] lo = lo := rfl

theorem lastB_cons (f : Key × Btree) (pre : List (Key × Btree))
    (lo : Option Key) : lastB (f :: pre) lo = lastB pre (some f.1) := by
  cases pre with
  | nil => simp [lastB]
  | cons g pre' =>
    unfold lastB
    rw [List.getLast?_cons_cons]
    obtain ⟨x, hx⟩ : ∃ x, (g :: pre').getLast? = some x :=
      ⟨_, List.getLast?_eq_getLast _ (by simp)⟩
    rw [hx]

theorem wfe_decomp {cap : Nat} (ents : List (Key × Btree)) :
    ∀ lo hi (k : Key), WFE cap lo hi ents → keysIn lo hi k →
    ∃ pre e post,
      ents = pre ++ e :: post ∧
      childIdx ents k = pre.length ∧
      WFT cap (lastB pre lo) (postB e.1 post hi) e.2 ∧
      keysIn (lastB pre lo) (postB e.1 post hi) k ∧
      (∀ r ∈ entsOfL pre, ltK r.1 k) ∧
      (∀ r ∈ entsOfL post, ltK k r.1) := by
  induction ents with
  | nil => intro lo hi k h _; exact absurd rfl (wfe_ne_nil h)
  | cons e rest ih =>
    intro lo hi k h hk
    cases rest with
    | nil =>
      refine ⟨[], e, [], by simp, childIdx_single e k, ?_, ?_, by simp [entsOfL], by simp [entsOfL]⟩
      · simpa [lastB_nil, postB] using h
      · simpa [lastB_nil, postB] using hk
    | cons f r2 =>
      have hcons := h
      rw [wfe_cons_iff (by simp)] at hcons
      obtain ⟨h1, h2, h3, h4⟩ := hcons
      rw [childIdx_cons k h]
      by_cases hge : ltK e.1 k ∨ e.1 = k
      · have hnk : ¬ ltK k e.1 := by
          rcases hge with hge | hge
          · exact ltK_asymm hge
          · exact hge ▸ ltK_irrefl k
        obtain ⟨pre', e', post', heq, hidx, hwf, hin, hpre, hpost⟩ :=
          ih (some e.1) hi k h4 ⟨hnk, hk.2⟩
        refine ⟨e :: pre', e', post', by simp [heq], by simp [hidx, if_pos hge], ?_, ?_, ?_, hpost⟩
        · rw [lastB_cons]
          exact hwf
        · rw [lastB_cons]
          exact hin
        · intro r hr
          rw [entsOfL_cons, List.mem_append] at hr
          rcases hr with hr | hr
          · have := (wft_flat e.2 lo (some e.1) h3).2 r hr
            exact ltK_of_lt_of_not_lt this.2 hnk
          · exact hpre r hr
      · push_neg at hge
        have hkel : ltK k e.1 := ltK_of_cmp_ne_lt_ne_eq hge.1 (fun a => hge.2 a)
        refine ⟨[], e, f :: r2, by simp, by simp [if_neg (not_or.mpr ⟨hge.1, hge.2⟩)], ?_, ?_, by simp [entsOfL], ?_⟩
        · simpa [lastB_nil, postB] using h3
        · exact ⟨by simpa [lastB_nil] using hk.1, by simpa [postB] using hkel⟩
        · intro r hr
          have := (wfe_flat h4).2 r hr
          exact ltK_of_lt_of_not_lt hkel this.1

theorem loWeaker_of_oblt {lo : Option Key} {s : Key} (h : oblt lo s) :
    loWeaker lo (some s) := by
  cases lo with
  | none => trivial
  | some a => exact .inl h

theorem hiWeaker_of_oabove {hi : Option Key} {s : Key} (h : oabove s hi) :
    hiWeaker (some s) hi := by
  cases hi with
  | none => trivial
  | some b => exact .inl h

theorem wfe_glue_replace {cap : Nat} (pre : List (Key × Btree)) :
    ∀ lo hi (e : Key × Btree) post c',
    WFE cap lo hi (pre ++ e :: post) →
    WFT cap (lastB pre lo) (postB e.1 post hi) c' →
    WFE cap lo hi (pre ++ (e.1, c') :: post) := by
  induction pre with
  | nil =>
    intro lo hi e post c' h hc
    rw [lastB_nil] at hc
    cases post with
    | nil =>
      simp only [List.nil_append, WFE] at h ⊢
      simpa [postB] using hc
    | cons p ps =>
      simp only [List.nil_append] at h ⊢
      rw [wfe_cons_iff (by simp)] at h ⊢
      obtain ⟨h1, h2, h3, h4⟩ := h
      exact ⟨h1, h2, by simpa [postB] using hc, h4⟩
  | cons f pre' ih =>
    intro lo hi e post c' h hc
    rw [List.cons_append] at h ⊢
    rw [wfe_cons_iff (by simp)] at h
    obtain ⟨h1, h2, h3, h4⟩ := h
    rw [lastB_cons] at hc
    rw [wfe_cons_iff (by simp)]
    exact ⟨h1, h2, h3, ih (some f.1) hi e post c' h4 hc⟩

theorem wfe_glue_insert {cap : Nat} (pre : List (Key × Btree)) :
    ∀ lo hi (e : Key × Btree) post (sep : Key) (l r : Btree),
    WFE cap lo hi (pre ++ e :: post) →
    oblt (lastB pre lo) sep →
    oabove sep (postB e.1 post hi) →
    WFT cap (lastB pre lo) (some sep) l →
    WFT cap (some sep) (postB e.1 post hi) r →
    WFE cap lo hi (pre ++ (sep, l) :: (e.1, r) :: post) := by
  induction pre with
  | nil =>
    intro lo hi e post sep l r h hsl hsr hl hr
    rw [lastB_nil] at hsl hl
    simp only [List.nil_append] at h ⊢
    rw [wfe_cons_iff (by simp)]
    cases post with
    | nil =>
      simp only [WFE] at h
      simp only [postB] at hsr hr
      refine ⟨hsl, hsr, hl, ?_⟩
      simpa [WFE] using hr
    | cons p ps =>
      rw [wfe_cons_iff (by simp)] at h
      obtain ⟨h1, h2, h3, h4⟩ := h
      simp only [postB] at hsr hr
      refine ⟨hsl, oabove_trans hsr h2, hl, ?_⟩
      rw [wfe_cons_iff (by simp)]
      exact ⟨hsr, h2, hr, h4⟩
  | cons f pre' ih =>
    intro lo hi e post sep l r h hsl hsr hl hr
    rw [List.cons_append] at h ⊢
    rw [wfe_cons_iff (by simp)] at h
    obtain ⟨h1, h2, h3, h4⟩ := h
    rw [lastB_cons] at hsl hl
    rw [wfe_cons_iff (by simp)]
    exact ⟨h1, h2, h3, ih (some f.1) hi e post sep l r h4 hsl hsr hl hr⟩

theorem wfe_glue_erase {cap : Nat} (pre : List (Key × Btree)) :
    ∀ lo hi (e : Key × Btree) post,
    WFE cap lo hi (pre ++ e :: post) → pre ++ post ≠ [] →
    WFE cap lo hi (pre ++ post) := by
  induction pre with
  | nil =>
    intro lo hi e post h hne
    simp only [List.nil_append] at h hne ⊢
    cases post with
    | nil => exact absurd rfl hne
    | cons p ps =>
      rw [wfe_cons_iff (by simp)] at h
      obtain ⟨h1, h2, h3, h4⟩ := h
      exact wfe_mono_aux _ (fun e' _ lo1 hi1 lo1' hi1' hw a b =>
        wft_mono e'.2 lo1 hi1 lo1' hi1' hw a b) (some e.1) hi lo hi h4
        (loWeaker_of_oblt h1) (hiWeaker_refl _)
  | cons f pre' ih =>
    intro lo hi e post h hne
    rw [List.cons_append] at h ⊢
    rw [wfe_cons_iff (by simp)] at h
    obtain ⟨h1, h2, h3, h4⟩ := h
    cases hpp : pre' ++ post with
    | nil =>
      simp only [WFE]
      exact wft_mono f.2 lo (some f.1) lo hi h3 (loWeaker_refl _)
        (hiWeaker_of_oabove h2)
    | cons q qs =>
      rw [wfe_cons_iff (by simp)]
      refine ⟨h1, h2, h3, ?_⟩
      rw [← hpp]
      exact ih (some f.1) hi e post h4 (by simp [hpp])

/-! ## `btree_get_kv_tick` (lookup with `BOF_EQUAL`)

The descent loads the root, runs `node_find` at each level, follows the
child at `idx` (or `idx + 1` on an exact match) while `node_level > 0`, and
at the leaf (`P_ACT`, `BOF_EQUAL`): if the key was found it returns the
record at `(leaf, idx)` with `M0_BSC_SUCCESS`, otherwise it reports
`M0_BSC_KEY_NOT_FOUND`. -/

inductive BFlags where
  | success
  | keyExists
  | keyNotFound
deriving DecidableEq

def getT (k : Key) : Btree → Option Rec
  | .leaf recs =>
    let r := ff_find (recs.map Prod.fst) k
    if r.1 then some (recs.getD r.2 ([], [])) else none
  | .node ents =>
    if h : childIdx ents k < ents.length then
      getT k (ents.get ⟨childIdx ents k, h⟩).2
    else none
termination_by t => sizeOf t
decreasing_by
  have h1 := List.sizeOf_lt_of_mem (List.get_mem ents (childIdx ents k) h)
  have h2 : sizeOf (ents.get ⟨childIdx ents k, h⟩).2 <
      sizeOf (ents.get ⟨childIdx ents k, h⟩) := by
    obtain ⟨a, b⟩ := ents.get ⟨childIdx ents k, h⟩
    simp only [Prod.mk.sizeOf_spec]
    omega
  simp only [Btree.node.sizeOf_spec]
  omega

/-- The lookup operation: flags delivered to the `P_ACT` callback together
with the record handed over on success. -/
def btree_get (k : Key) (t : Btree) : BFlags × Option Rec :=
  match getT k t with
  | some r => (.success, some r)
  | none => (.keyNotFound, none)

theorem get_append_len {α : Type} (pre : List α) (e : α) (post : List α)
    (h : pre.length < (pre ++ e :: post).length) :
    (pre ++ e :: post).get ⟨pre.length, h⟩ = e := by
  induction pre with
  | nil => rfl
  | cons f pre2 ih => exact ih (by simp)

theorem lkKV_of_sorted_mem {recs : List Rec} {k : Key}
    (hs : (recs.map Prod.fst).Pairwise ltK) (hm : k ∈ recs.map Prod.fst) :
    lkKV recs k = some (recs.getD (lbIdx (recs.map Prod.fst) k) ([], [])) ∧
    (recs.getD (lbIdx (recs.map Prod.fst) k) ([], [])).1 = k := by
  induction recs with
  | nil => simp at hm
  | cons r rest ih =>
    rw [List.map_cons, List.pairwise_cons] at hs
    by_cases he : r.1 = k
    · have hlb : lbIdx (r.1 :: rest.map Prod.fst) k = 0 := by
        rw [lbIdx_cons, if_neg (he ▸ ltK_irrefl k)]
      rw [List.map_cons, hlb]
      simp [lkKV, he, List.getD_cons_zero]
    · have hm' : k ∈ rest.map Prod.fst := by
        rw [List.map_cons] at hm
        rcases List.mem_cons.mp hm with h | h
        · exact absurd h.symm he
        · exact h
      have hrk : ltK r.1 k := hs.1 k hm'
      have := ih hs.2 hm'
      rw [List.map_cons, lbIdx_cons, if_pos hrk]
      simp only [lkKV, he, if_false, List.getD_cons_succ]
      exact this

theorem lkKV_eq_none_of_not_mem {recs : List Rec} {k : Key}
    (h : k ∉ recs.map Prod.fst) : lkKV recs k = none := by
  induction recs with
  | nil => rfl
  | cons r rest ih =>
    simp only [List.map_cons, List.mem_cons, not_or] at h
    have hne : ¬ (r.1 = k) := fun he2 => h.1 (Eq.symm he2)
    simp only [lkKV, if_neg hne]
    exact ih h.2

theorem getT_spec {cap : Nat} (t : Btree) :
    ∀ lo hi (k : Key), WFT cap lo hi t → keysIn lo hi k →
    getT k t = lkKV (entsOf t) k := by
  induction t using Btree.inductionOn with
  | hleaf recs =>
    intro lo hi k h hk
    obtain ⟨h1, h2, h3⟩ := h
    rw [show getT k (.leaf recs) =
      (if (ff_find (recs.map Prod.fst) k).1
        then some (recs.getD (ff_find (recs.map Prod.fst) k).2 ([], []))
        else none) from by rw [getT]]
    rw [ff_find_eq _ _ h2]
    simp only [entsOf, decide_eq_true_eq]
    by_cases hm : k ∈ recs.map Prod.fst
    · rw [if_pos hm]
      exact (lkKV_of_sorted_mem h2 hm).1.symm
    · rw [if_neg hm]
      exact (lkKV_eq_none_of_not_mem hm).symm
  | hnode ents ih =>
    intro lo hi k h hk
    obtain ⟨hpos, hcap, hwfe⟩ := h
    obtain ⟨pre, e, post, heq, hidx, hwf, hin, hpre, hpost⟩ :=
      wfe_decomp ents lo hi k hwfe hk
    have hlt : childIdx ents k < ents.length := by
      rw [hidx, heq]
      simp
    rw [show getT k (.node ents) =
      getT k (ents.get ⟨childIdx ents k, hlt⟩).2 from by rw [getT]; simp [hlt]]
    have hget : ents.get ⟨childIdx ents k, hlt⟩ = e := by
      have h3 : ∀ (j : Nat) (hj : j < ents.length), j = pre.length →
          ents.get ⟨j, hj⟩ = e := by
        subst heq
        intro j hj hje
        subst hje
        exact get_append_len pre e post hj
      exact h3 _ hlt hidx
    rw [hget]
    rw [ih e (by rw [heq]; simp) _ _ k hwf hin]
    rw [show entsOf (.node ents) = entsOfL ents from by rw [entsOf]]
    rw [heq, entsOfL_append, entsOfL_cons]
    rw [show entsOfL pre ++ (entsOf e.2 ++ entsOfL post) =
      entsOfL pre ++ entsOf e.2 ++ entsOfL post from by simp]
    rw [lkKV_append_right (fun r hr => (ltK_ne (hpost r hr)).symm)]
    rw [lkKV_append_left (fun r hr => ltK_ne (hpre r hr))]

/-! ## `generic_move` with `D_LEFT`/`NR_EVEN`

With direction `D_LEFT` and `nr = NR_EVEN`, `generic_move` repeatedly moves
the first record of `src` to the tail of `tgt` while
`node_space(tgt) > node_space(src)`; with equal geometry on both nodes this
is `tgt.length < src.length`.  Starting from an empty target (the freshly
allocated split node) it moves the first `⌈n/2⌉` records.  The target
always has room because it never exceeds the source's record count. -/

def moveEvenLeft {α : Type} : List α → List α → List α × List α
  | [], tgt => ([], tgt)
  | x :: s, tgt =>
    if tgt.length < s.length + 1 then moveEvenLeft s (tgt ++ [x])
    else (x :: s, tgt)

theorem moveEvenLeft_eq {α : Type} :
    ∀ (src tgt : List α),
    moveEvenLeft src tgt =
      (src.drop ((src.length - tgt.length + 1) / 2),
       tgt ++ src.take ((src.length - tgt.length + 1) / 2)) := by
  intro src
  induction src with
  | nil =>
    intro tgt
    simp [moveEvenLeft]
  | cons x s ih =>
    intro tgt
    rw [moveEvenLeft]
    by_cases h : tgt.length < s.length + 1
    · rw [if_pos h, ih]
      have hlen : (tgt ++ [x]).length = tgt.length + 1 := by simp
      rw [hlen]
      have hj : ((x :: s).length - tgt.length + 1) / 2 =
          (s.length - (tgt.length + 1) + 1) / 2 + 1 := by
        simp only [List.length_cons]
        omega
      rw [hj, List.drop_succ_cons, List.take_succ_cons]
      simp
    · rw [if_neg h]
      have hj : ((x :: s).length - tgt.length + 1) / 2 = 0 := by
        simp only [List.length_cons]
        omega
      rw [hj]
      simp

/-! ## `btree_put_kv_tick` with `btree_put_makespace_phase`

The insert descent records, per level, the node and `l_idx` (the `ff_find`
index, plus one on an exact match).  At the leaf (`P_MAKESPACE` / `P_ACT`):
a found key reports `M0_BSC_KEY_EXISTS` without mutation; otherwise, if the
record fits, `node_make` opens the slot at `l_idx` and the callback writes
the record.  If the leaf is full, `btree_put_makespace_phase` splits it with
`btree_put_split_and_find` (move `NR_EVEN` left into `l_alloc`, compare the
key against the right node's first key to pick the target, `node_find`
inside the target) and then walks the recorded levels upwards, inserting
into the parent at its recorded `l_idx` the promoted record
`{right node's first key after the leaf insert, address of l_alloc}` — or,
for internal splits, `{left node's last key after the insert, address of
l_alloc}` — splitting again while the parent is full (with the corner case
appending past the left node's sentinel when the promoted key exceeds its
last key).  If the root itself splits, `btree_put_root_split_handle` builds
the new two-record root (its second key slot is the unused sentinel,
left as the zero record here). -/

inductive PutRes where
  | keyExists
  | done (t : Btree)
  | split (l : Btree) (sep : Key) (r : Btree)

def dRec : Rec := ([], [])

def dEnt : Key × Btree := ([], .leaf [])

def dKey : Key := []

/-- The upward step of `btree_put_makespace_phase` at an internal node: the
record `(sep, l)` promoted by a child split is inserted at the descent index
`ci` into the node's record list `ents2` (in which the descent child has
already been replaced by the split's right node).  If the node is full it is
split itself by `btree_put_split_and_find`: move `NR_EVEN` left, compare the
promoted key against the right node's first key to pick the target, with the
corner case appending past the left node's last record when the promoted key
exceeds that record's key. -/
def putUp (cap : Nat) (ci : Nat) (sep : Key) (l : Btree)
    (ents2 : List (Key × Btree)) : PutRes :=
  if ents2.length < cap then .done (.node (ents2.insertIdx ci (sep, l)))
  else
    let mv := moveEvenLeft ents2 []
    let lents := mv.2
    let rents := mv.1
    if cmpBytes sep (rents.headD dEnt).1 = .lt then
      if cmpBytes sep (lents.getLastD dEnt).1 = .gt then
        .split (.node (lents ++ [(sep, l)])) sep (.node rents)
      else
        let fl := ff_find (sKeys lents) sep
        let lents2 := lents.insertIdx fl.2 (sep, l)
        .split (.node lents2) (lents2.getLastD dEnt).1 (.node rents)
    else
      let fr2 := ff_find (sKeys rents) sep
      let rents2 := rents.insertIdx fr2.2 (sep, l)
      .split (.node lents) (lents.getLastD dEnt).1 (.node rents2)

def putT (cap : Nat) (k : Key) (v : Val) : Btree → PutRes
  | .leaf recs =>
    let fr := ff_find (recs.map Prod.fst) k
    if fr.1 then .keyExists
    else if recs.length < cap then
      .done (.leaf (recs.insertIdx fr.2 (k, v)))
    else
      let mv := moveEvenLeft recs []
      let lrecs := mv.2
      let rrecs := mv.1
      if cmpBytes k (rrecs.headD dRec).1 = .lt then
        let fl := ff_find (lrecs.map Prod.fst) k
        .split (.leaf (lrecs.insertIdx fl.2 (k, v))) (rrecs.headD dRec).1
          (.leaf rrecs)
      else
        let fr2 := ff_find (rrecs.map Prod.fst) k
        let rrecs2 := rrecs.insertIdx fr2.2 (k, v)
        .split (.leaf lrecs) (rrecs2.headD dRec).1 (.leaf rrecs2)
  | .node ents =>
    if h : childIdx ents k < ents.length then
      match putT cap k v (ents.get ⟨childIdx ents k, h⟩).2 with
      | .keyExists => .keyExists
      | .done c2 =>
        .done (.node (ents.set (childIdx ents k)
          ((ents.get ⟨childIdx ents k, h⟩).1, c2)))
      | .split l sep r =>
        putUp cap (childIdx ents k) sep l
          (ents.set (childIdx ents k) ((ents.get ⟨childIdx ents k, h⟩).1, r))
    else .keyExists
termination_by t => sizeOf t
decreasing_by
  have h1 := List.sizeOf_lt_of_mem (List.get_mem ents (childIdx ents k) h)
  have h2 : sizeOf (ents.get ⟨childIdx ents k, h⟩).2 <
      sizeOf (ents.get ⟨childIdx ents k, h⟩) := by
    obtain ⟨a, b⟩ := ents.get ⟨childIdx ents k, h⟩
    simp only [Prod.mk.sizeOf_spec]
    omega
  simp only [Btree.node.sizeOf_spec]
  omega

/-- The insert operation: the flags delivered to the callback and the
resulting tree (unchanged when the key already exists; re-rooted by
`btree_put_root_split_handle` when the root splits). -/
def btree_put (cap : Nat) (k : Key) (v : Val) (t : Btree) : BFlags × Btree :=
  match putT cap k v t with
  | .keyExists => (.keyExists, t)
  | .done t2 => (.success, t2)
  | .split l sep r => (.success, .node [(sep, l), (dKey, r)])

/-! ## `btree_del_kv_tick` with `btree_del_resolve_underflow`

The delete descent mirrors the others.  At the leaf (`P_ACT`): a missing
key reports `M0_BSC_KEY_NOT_FOUND` without mutation; otherwise `node_del`
removes the record at `l_idx`.  If the leaf is the root (`i_used == 0`) or
does not underflow (its record count stays nonzero), the operation
finishes.  Otherwise `btree_del_resolve_underflow` walks upward: each
emptied child's record is deleted from its parent at the recorded `l_idx`,
until a parent keeps records.  At the root: more than one record left —
done; zero records left — the root becomes an empty level-0 leaf and
`tree.t_height = 1`; exactly one record left — the root collapses, taking
over the records and level of its only remaining child (loaded earlier via
`P_STORE_CHILD`). -/

inductive DelRes where
  | notFound
  | done (t : Btree)
  | emptied

def delT (k : Key) : Btree → DelRes
  | .leaf recs =>
    let fr := ff_find (recs.map Prod.fst) k
    if fr.1 then
      let recs2 := recs.eraseIdx fr.2
      if recs2.isEmpty then .emptied else .done (.leaf recs2)
    else .notFound
  | .node ents =>
    if h : childIdx ents k < ents.length then
      match delT k (ents.get ⟨childIdx ents k, h⟩).2 with
      | .notFound => .notFound
      | .done c2 =>
        .done (.node (ents.set (childIdx ents k)
          ((ents.get ⟨childIdx ents k, h⟩).1, c2)))
      | .emptied =>
        let ents2 := ents.eraseIdx (childIdx ents k)
        if ents2.isEmpty then .emptied else .done (.node ents2)
    else .notFound
termination_by t => sizeOf t
decreasing_by
  have h1 := List.sizeOf_lt_of_mem (List.get_mem ents (childIdx ents k) h)
  have h2 : sizeOf (ents.get ⟨childIdx ents k, h⟩).2 <
      sizeOf (ents.get ⟨childIdx ents k, h⟩) := by
    obtain ⟨a, b⟩ := ents.get ⟨childIdx ents k, h⟩
    simp only [Prod.mk.sizeOf_spec]
    omega
  simp only [Btree.node.sizeOf_spec]
  omega

/-- The delete operation at the root: flags delivered to the callback and
the resulting tree, with the root cases of
`btree_del_resolve_underflow`. -/
def btree_del (k : Key) (t : Btree) : BFlags × Btree :=
  match t with
  | .leaf recs =>
    let fr := ff_find (recs.map Prod.fst) k
    if fr.1 then (.success, .leaf (recs.eraseIdx fr.2))
    else (.keyNotFound, t)
  | .node ents =>
    if h : childIdx ents k < ents.length then
      match delT k (ents.get ⟨childIdx ents k, h⟩).2 with
      | .notFound => (.keyNotFound, t)
      | .done c2 =>
        (.success, .node (ents.set (childIdx ents k)
          ((ents.get ⟨childIdx ents k, h⟩).1, c2)))
      | .emptied =>
        let ents2 := ents.eraseIdx (childIdx ents k)
        if 1 < ents2.length then (.success, .node ents2)
        else if ents2.length = 1 then (.success, (ents2.headD dEnt).2)
        else (.success, .leaf [])
    else (.keyNotFound, t)

/-! ## Helper lemmas for the insert and delete proofs -/

theorem ltK_of_not_lt_of_lt {x l b : Key} (h1 : ¬ ltK x l) (h2 : ltK x b) :
    ltK l b := by
  rcases ltK_total l x with h | h | h
  · exact ltK_trans h h2
  · exact h ▸ h2
  · exact absurd h h1

theorem oblt_trans {lo : Option Key} {a b : Key} (h1 : oblt lo a)
    (h2 : ltK a b) : oblt lo b := by
  cases lo with
  | none => trivial
  | some l => exact ltK_trans h1 h2

theorem obelow_of_oblt {lo : Option Key} {a : Key} (h : oblt lo a) :
    obelow lo a := by
  cases lo with
  | none => trivial
  | some l => exact ltK_asymm h

theorem insertIdx_lbIdx_eq_insKV (recs : List Rec) (k : Key) (v : Val) :
    recs.insertIdx (lbIdx (recs.map Prod.fst) k) (k, v) = insKV recs k v := by
  induction recs with
  | nil => rfl
  | cons r rest ih =>
    rw [List.map_cons, lbIdx_cons]
    by_cases h : ltK r.1 k
    · rw [if_pos h, List.insertIdx_succ_cons]
      simp only [insKV, if_pos h]
      rw [ih]
    · rw [if_neg h]
      simp [insKV, if_neg h, List.insertIdx]

theorem mem_insKV {l : List Rec} {k : Key} {v : Val} {r : Rec}
    (h : r ∈ insKV l k v) : r = (k, v) ∨ r ∈ l := by
  induction l with
  | nil => simpa [insKV] using h
  | cons a rest ih =>
    simp only [insKV] at h
    by_cases ha : ltK a.1 k
    · rw [if_pos ha] at h
      rcases List.mem_cons.mp h with h | h
      · exact .inr (by simp [h])
      · rcases ih h with h | h
        · exact .inl h
        · exact .inr (by simp [h])
    · rw [if_neg ha] at h
      rcases List.mem_cons.mp h with h | h
      · exact .inl h
      · exact .inr h

theorem insKV_length (l : List Rec) (k : Key) (v : Val) :
    (insKV l k v).length = l.length + 1 := by
  induction l with
  | nil => rfl
  | cons a rest ih =>
    simp only [insKV]
    by_cases ha : ltK a.1 k
    · rw [if_pos ha]
      simp [ih]
    · rw [if_neg ha]
      simp

theorem insKV_pairwise {l : List Rec} {k : Key} {v : Val}
    (hs : (l.map Prod.fst).Pairwise ltK) (hnm : k ∉ l.map Prod.fst) :
    ((insKV l k v).map Prod.fst).Pairwise ltK := by
  induction l with
  | nil => simp [insKV]
  | cons a rest ih =>
    rw [List.map_cons, List.pairwise_cons] at hs
    simp only [List.map_cons, List.mem_cons, not_or] at hnm
    simp only [insKV]
    by_cases ha : ltK a.1 k
    · rw [if_pos ha]
      rw [List.map_cons, List.pairwise_cons]
      constructor
      · intro x hx
        rw [List.mem_map] at hx
        obtain ⟨rx, hrx, hxe⟩ := hx
        subst hxe
        rcases mem_insKV hrx with h | h
        · rw [h]
          exact ha
        · exact hs.1 rx.1 (List.mem_map.mpr ⟨rx, h, rfl⟩)
      · exact ih hs.2 hnm.2
    · rw [if_neg ha]
      have hka : ltK k a.1 :=
        ltK_of_cmp_ne_lt_ne_eq ha (fun he => hnm.1 he.symm)
      rw [List.map_cons, List.pairwise_cons]
      constructor
      · intro x hx
        rw [List.map_cons, List.mem_cons] at hx
        rcases hx with hx | hx
        · exact hx ▸ hka
        · exact ltK_trans hka (hs.1 x hx)
      · rw [List.map_cons, List.pairwise_cons]
        exact ⟨hs.1, hs.2⟩

theorem insKV_append_keep {l1 l2 : List Rec} {k : Key} {v : Val}
    (h : ∀ r ∈ l2, ¬ ltK r.1 k) :
    insKV (l1 ++ l2) k v = insKV l1 k v ++ l2 := by
  induction l1 with
  | nil =>
    simp only [List.nil_append]
    cases l2 with
    | nil => rfl
    | cons r2 rest2 =>
      simp only [insKV]
      rw [if_neg (h r2 (by simp))]
      rfl
  | cons a l1' ih =>
    simp only [List.cons_append, insKV, List.append_eq]
    by_cases ha : ltK a.1 k
    · rw [if_pos ha, if_pos ha, ih, List.cons_append]
    · rw [if_neg ha, if_neg ha]
      rfl

theorem set_append_len {α : Type} (pre : List α) (e x : α) (post : List α) :
    (pre ++ e :: post).set pre.length x = pre ++ x :: post := by
  induction pre with
  | nil => rfl
  | cons f pre' ih => simp [List.set_cons_succ, ih]

theorem insertIdx_append_len {α : Type} (pre rest : List α) (x : α) :
    (pre ++ rest).insertIdx pre.length x = pre ++ x :: rest := by
  induction pre with
  | nil => simp [List.insertIdx]
  | cons f pre' ih => simp [List.insertIdx_succ_cons, ih]

theorem getLastD_irrel {α : Type} {l : List α} (h : l ≠ []) (d d' : α) :
    l.getLastD d = l.getLastD d' := by
  rw [List.getLastD_eq_getLast?, List.getLastD_eq_getLast?,
    List.getLast?_eq_getLast l h]
  rfl

theorem getLastD_mem {α : Type} {l : List α} (h : l ≠ []) (d : α) :
    l.getLastD d ∈ l := by
  rw [List.getLastD_eq_getLast?, List.getLast?_eq_getLast l h]
  exact List.getLast_mem h

theorem lastB_of_ne_nil {pre : List (Key × Btree)} (h : pre ≠ [])
    (lo : Option Key) : lastB pre lo = some (pre.getLastD dEnt).1 := by
  unfold lastB
  rw [List.getLast?_eq_getLast pre h]
  rw [List.getLastD_eq_getLast?, List.getLast?_eq_getLast pre h]
  rfl

theorem getLast?_drop_of_ne_nil {α : Type} {l : List α} {m : Nat}
    (h : l.drop m ≠ []) : (l.drop m).getLast? = l.getLast? := by
  conv_rhs => rw [← List.take_append_drop m l]
  rw [List.getLast?_append]
  rw [List.getLast?_eq_getLast _ h]
  rfl

theorem wfe_split_pieces {cap : Nat} (ents : List (Key × Btree)) :
    ∀ lo hi m, WFE cap lo hi ents → 0 < m → m < ents.length →
    WFE cap lo (some ((ents.take m).getLastD dEnt).1) (ents.take m) ∧
    WFE cap (some ((ents.take m).getLastD dEnt).1) hi (ents.drop m) ∧
    oblt lo ((ents.take m).getLastD dEnt).1 ∧
    oabove ((ents.take m).getLastD dEnt).1 hi := by
  induction ents with
  | nil => intro lo hi m _ _ hml; simp at hml
  | cons e rest ih =>
    intro lo hi m h hm hml
    have hrest : rest ≠ [] := by
      intro he
      rw [he] at hml
      simp at hml
      omega
    rw [wfe_cons_iff hrest] at h
    obtain ⟨h1, h2, h3, h4⟩ := h
    cases m with
    | zero => omega
    | succ m' =>
      cases m' with
      | zero =>
        simp only [List.take_succ_cons, List.take_zero, List.drop_succ_cons,
          List.drop_zero]
        rw [show ([e] : List (Key × Btree)).getLastD dEnt = e from rfl]
        refine ⟨?_, h4, h1, h2⟩
        simp only [WFE]
        exact h3
      | succ m'' =>
        have hm'' : 0 < m'' + 1 := by omega
        have hml'' : m'' + 1 < rest.length := by
          simp only [List.length_cons] at hml
          omega
        obtain ⟨ihl, ihr, ihb, iha⟩ := ih (some e.1) hi (m'' + 1) h4 hm'' hml''
        have htk : rest.take (m'' + 1) ≠ [] := by
          intro he
          have := congrArg List.length he
          rw [List.length_take] at this
          simp only [List.length_nil] at this
          omega
        have hgl : ((e :: rest).take (m'' + 1 + 1)).getLastD dEnt =
            (rest.take (m'' + 1)).getLastD dEnt := by
          rw [List.take_succ_cons, List.getLastD_cons]
          exact getLastD_irrel htk _ _
        rw [hgl]
        rw [List.take_succ_cons, List.drop_succ_cons]
        refine ⟨?_, ihr, oblt_trans h1 ihb, iha⟩
        rw [wfe_cons_iff htk]
        exact ⟨h1, ihb, h3, ihl⟩

theorem wfe_at_entry {cap : Nat} (pre : List (Key × Btree)) :
    ∀ lo hi (e : Key × Btree) post, WFE cap lo hi (pre ++ e :: post) →
    post ≠ [] → oblt (lastB pre lo) e.1 ∧ oabove e.1 hi := by
  induction pre with
  | nil =>
    intro lo hi e post h hpost
    rw [List.nil_append, wfe_cons_iff hpost] at h
    exact ⟨h.1, h.2.1⟩
  | cons f pre' ih =>
    intro lo hi e post h hpost
    rw [List.cons_append, wfe_cons_iff (by simp)] at h
    rw [lastB_cons]
    exact ih (some f.1) hi e post h.2.2.2 hpost

theorem pre_keys_mem_sKeys {pre : List (Key × Btree)} {e : Key × Btree}
    {post : List (Key × Btree)} {x : Key} (h : x ∈ pre.map Prod.fst) :
    x ∈ sKeys (pre ++ e :: post) := by
  unfold sKeys
  rw [List.map_append, List.map_cons, List.dropLast_append_cons]
  exact List.mem_append.mpr (.inl h)

theorem wfe_pre_keys_lt {cap : Nat} (pre : List (Key × Btree)) :
    ∀ lo hi (e : Key × Btree) post (sep : Key),
    WFE cap lo hi (pre ++ e :: post) → oblt (lastB pre lo) sep →
    ∀ x ∈ pre.map Prod.fst, ltK x sep := by
  induction pre with
  | nil => intro lo hi e post sep _ _ x hx; simp at hx
  | cons f pre' ih =>
    intro lo hi e post sep h hs x hx
    rw [List.cons_append, wfe_cons_iff (by simp)] at h
    obtain ⟨h1, h2, h3, h4⟩ := h
    rw [lastB_cons] at hs
    rw [List.map_cons, List.mem_cons] at hx
    rcases hx with hx | hx
    · subst hx
      cases hpre' : pre' with
      | nil =>
        rw [hpre', lastB_nil] at hs
        exact hs
      | cons g pre'' =>
        have hne : pre' ≠ [] := by rw [hpre']; simp
        rw [lastB_of_ne_nil hne] at hs
        have hLmem : (pre'.getLastD dEnt).1 ∈ pre'.map Prod.fst :=
          List.mem_map.mpr ⟨_, getLastD_mem hne dEnt, rfl⟩
        have hLsk : (pre'.getLastD dEnt).1 ∈ sKeys (pre' ++ e :: post) :=
          pre_keys_mem_sKeys hLmem
        have := (wfe_sKeys _ _ _ h4).2 _ hLsk
        exact ltK_trans this.1 hs
    · exact ih (some f.1) hi e post sep h4 hs x hx

theorem getD_append_left {l1 l2 : List Key} {n : Nat} (h : n < l1.length) :
    (l1 ++ l2).getD n [] = l1.getD n [] := by
  rw [getD_eq_getElem (by simp; omega), getD_eq_getElem h,
    List.getElem_append_left h]

theorem wfe_insert_pos {cap : Nat} (pre2 : List (Key × Btree)) :
    ∀ lo hi (e : Key × Btree) post2 (sep : Key),
    WFE cap lo hi (pre2 ++ e :: post2) →
    oblt (lastB pre2 lo) sep → oabove sep (postB e.1 post2 hi) →
    lbIdx (sKeys (pre2 ++ e :: post2)) sep = pre2.length := by
  intro lo hi e post2 sep h hlo hhi
  have hsk : sKeys (pre2 ++ e :: post2) =
      pre2.map Prod.fst ++ (e.1 :: post2.map Prod.fst).dropLast := by
    unfold sKeys
    rw [List.map_append, List.map_cons, List.dropLast_append_cons]
  apply lbIdx_eq
  · rw [hsk]
    simp only [List.length_append, List.length_map]
    omega
  · intro t ht
    rw [hsk, getD_append_left (by simp; omega)]
    have hmem : (pre2.map Prod.fst).getD t [] ∈ pre2.map Prod.fst := by
      rw [getD_eq_getElem (by simp; omega)]
      exact List.getElem_mem _
    exact wfe_pre_keys_lt pre2 lo hi e post2 sep h hlo _ hmem
  · intro hlen
    cases hpost : post2 with
    | nil =>
      rw [hsk, hpost] at hlen
      simp at hlen
    | cons p ps =>
      subst hpost
      rw [show postB e.1 (p :: ps) hi = some e.1 from rfl] at hhi
      have hget : (sKeys (pre2 ++ e :: p :: ps)).getD pre2.length [] = e.1 := by
        rw [hsk]
        rw [getD_eq_getElem (by simp)]
        rw [List.getElem_append_right (by simp)]
        simp [List.dropLast]
      rw [hget]
      exact ltK_asymm hhi

theorem wfe_glue_snoc {cap : Nat} (pre : List (Key × Btree)) :
    ∀ lo hi (x : Key) (c : Btree),
    WFE cap lo (some (pre.getLastD dEnt).1) pre →
    oblt lo (pre.getLastD dEnt).1 →
    oabove (pre.getLastD dEnt).1 hi →
    WFT cap (some (pre.getLastD dEnt).1) hi c →
    WFE cap lo hi (pre ++ [(x, c)]) := by
  induction pre with
  | nil => intro lo hi x c h; exact absurd rfl (wfe_ne_nil h)
  | cons f pre' ih =>
    intro lo hi x c h hb ha hc
    cases hpre' : pre' with
    | nil =>
      subst hpre'
      simp only [WFE] at h
      rw [show ([f] : List (Key × Btree)).getLastD dEnt = f from rfl] at h hb ha hc
      rw [List.cons_append, List.nil_append]
      rw [wfe_cons_iff (by simp)]
      refine ⟨hb, ha, h, ?_⟩
      simp only [WFE]
      exact hc
    | cons g pre'' =>
      have hne : pre' ≠ [] := by rw [hpre']; simp
      subst hpre'
      have hgl : ((f :: g :: pre'').getLastD dEnt) =
          ((g :: pre'').getLastD dEnt) := by
        rw [List.getLastD_cons]
        exact getLastD_irrel (by simp) _ _
      rw [hgl] at h hb ha hc
      rw [wfe_cons_iff (by simp)] at h
      obtain ⟨h1, h2, h3, h4⟩ := h
      rw [List.cons_append, wfe_cons_iff (by simp)]
      refine ⟨h1, oabove_trans h2 ha, h3, ?_⟩
      exact ih (some f.1) hi x c h4 h2 ha hc

theorem take_append_cons {α : Type} (pre : List α) (x : α) (rest : List α)
    {n : Nat} (h : pre.length < n) :
    (pre ++ x :: rest).take n = pre ++ x :: rest.take (n - pre.length - 1) := by
  rw [List.take_append_eq_append_take, List.take_of_length_le (by omega)]
  congr 1
  have h2 : n - pre.length = (n - pre.length - 1) + 1 := by omega
  rw [h2, List.take_succ_cons, Nat.add_sub_cancel]

theorem drop_append_cons {α : Type} (pre : List α) (x : α) (rest : List α)
    {n : Nat} (h : pre.length < n) :
    (pre ++ x :: rest).drop n = rest.drop (n - pre.length - 1) := by
  rw [List.drop_append_eq_append_drop, List.drop_eq_nil_of_le (by omega),
    List.nil_append]
  have h2 : n - pre.length = (n - pre.length - 1) + 1 := by omega
  rw [h2, List.drop_succ_cons, Nat.add_sub_cancel]

theorem getLastD_concat {α : Type} (l : List α) (x d : α) :
    (l ++ [x]).getLastD d = x := by
  rw [List.getLastD_eq_getLast?, List.getLast?_concat]
  rfl

/-- Correctness of one `putT` step on the window `[lo, hi)`: a `keyExists`
verdict means the key is present; a `done` tree is well-formed over the same
window and flattens to the sorted insert; a split yields two well-formed
trees around the promoted separator, whose flattenings concatenate to the
sorted insert. -/
def PutOk (cap : Nat) (k : Key) (v : Val) (lo hi : Option Key) (t : Btree) :
    PutRes → Prop
  | .keyExists => k ∈ (entsOf t).map Prod.fst
  | .done t2 => WFT cap lo hi t2 ∧ entsOf t2 = insKV (entsOf t) k v
  | .split l sep r =>
    WFT cap lo (some sep) l ∧ WFT cap (some sep) hi r ∧
    oblt lo sep ∧ oabove sep hi ∧
    entsOf l ++ entsOf r = insKV (entsOf t) k v

theorem node_split_ok {cap : Nat} {lo hi : Option Key}
    {E3 : List (Key × Btree)} {M : Nat} (h : WFE cap lo hi E3)
    (h1 : 0 < M) (h2 : M < E3.length) (h3 : M ≤ cap)
    (h4 : E3.length - M ≤ cap) :
    WFT cap lo (some ((E3.take M).getLastD dEnt).1) (.node (E3.take M)) ∧
    WFT cap (some ((E3.take M).getLastD dEnt).1) hi (.node (E3.drop M)) ∧
    oblt lo ((E3.take M).getLastD dEnt).1 ∧
    oabove ((E3.take M).getLastD dEnt).1 hi ∧
    entsOfL (E3.take M) ++ entsOfL (E3.drop M) = entsOfL E3 := by
  obtain ⟨hl, hr, hb, ha⟩ := wfe_split_pieces E3 lo hi M h h1 h2
  refine ⟨⟨?_, ?_, hl⟩, ⟨?_, ?_, hr⟩, hb, ha, ?_⟩
  · rw [List.length_take]
    omega
  · rw [List.length_take]
    omega
  · rw [List.length_drop]
    omega
  · rw [List.length_drop]
    exact h4
  · rw [← entsOfL_append, List.take_append_drop]

theorem entsOfL_mid_insKV {pre post : List (Key × Btree)} {B : List Rec}
    {k : Key} {v : Val} {e : Key × Btree}
    (hpre : ∀ r ∈ entsOfL pre, ltK r.1 k)
    (hpost : ∀ r ∈ entsOfL post, ltK k r.1)
    (hB : B = insKV (entsOf e.2) k v) :
    entsOfL pre ++ B ++ entsOfL post = insKV (entsOfL (pre ++ e :: post)) k v := by
  rw [entsOfL_append, entsOfL_cons]
  rw [show entsOfL pre ++ (entsOf e.2 ++ entsOfL post) =
    entsOfL pre ++ (entsOf e.2 ++ entsOfL post) from rfl]
  rw [insKV_append_left hpre]
  rw [insKV_append_keep (fun r hr => ltK_asymm (hpost r hr))]
  rw [hB, List.append_assoc]

theorem putT_leaf_eq (cap : Nat) (k : Key) (v : Val) (recs : List Rec) :
    putT cap k v (.leaf recs) =
      (if (ff_find (recs.map Prod.fst) k).1 then .keyExists
       else if recs.length < cap then
         .done (.leaf (recs.insertIdx (ff_find (recs.map Prod.fst) k).2 (k, v)))
       else if cmpBytes k (((moveEvenLeft recs []).1).headD dRec).1 = .lt then
         .split
           (.leaf (((moveEvenLeft recs []).2).insertIdx
             (ff_find (((moveEvenLeft recs []).2).map Prod.fst) k).2 (k, v)))
           (((moveEvenLeft recs []).1).headD dRec).1
           (.leaf ((moveEvenLeft recs []).1))
       else
         .split (.leaf ((moveEvenLeft recs []).2))
           ((((moveEvenLeft recs []).1).insertIdx
             (ff_find (((moveEvenLeft recs []).1).map Prod.fst) k).2
             (k, v)).headD dRec).1
           (.leaf (((moveEvenLeft recs []).1).insertIdx
             (ff_find (((moveEvenLeft recs []).1).map Prod.fst) k).2 (k, v)))) := by
  rw [putT]

theorem putT_node_eq (cap : Nat) (k : Key) (v : Val)
    (ents : List (Key × Btree)) (h : childIdx ents k < ents.length) :
    putT cap k v (.node ents) =
      (match putT cap k v (ents.get ⟨childIdx ents k, h⟩).2 with
       | .keyExists => .keyExists
       | .done c2 => .done (.node (ents.set (childIdx ents k)
           ((ents.get ⟨childIdx ents k, h⟩).1, c2)))
       | .split l sep r => putUp cap (childIdx ents k) sep l
           (ents.set (childIdx ents k)
             ((ents.get ⟨childIdx ents k, h⟩).1, r))) := by
  rw [putT]
  rw [dif_pos h]

theorem putT_leaf_ok {cap : Nat} {k : Key} {v : Val} {recs : List Rec}
    {lo hi : Option Key} (hcap : 2 ≤ cap)
    (h : WFT cap lo hi (.leaf recs)) (hk : keysIn lo hi k) :
    PutOk cap k v lo hi (.leaf recs) (putT cap k v (.leaf recs)) := by
  obtain ⟨hlen, hsort, hin⟩ := h
  rw [putT_leaf_eq, ff_find_eq _ _ hsort]
  simp only [decide_eq_true_eq]
  by_cases hmem : k ∈ recs.map Prod.fst
  · rw [if_pos hmem]
    simp only [PutOk, entsOf]
    exact hmem
  · rw [if_neg hmem]
    by_cases hfit : recs.length < cap
    · rw [if_pos hfit]
      simp only [PutOk, entsOf]
      rw [insertIdx_lbIdx_eq_insKV]
      refine ⟨⟨?_, insKV_pairwise hsort hmem, ?_⟩, rfl⟩
      · rw [insKV_length]
        omega
      · intro r hr
        rcases mem_insKV hr with hr | hr
        · rw [hr]
          exact hk
        · exact hin r hr
    · rw [if_neg hfit]
      have hlc : recs.length = cap := le_antisymm hlen (by omega)
      rw [moveEvenLeft_eq]
      simp only [List.length_nil, Nat.sub_zero, List.nil_append]
      have hj1 : 1 ≤ (recs.length + 1) / 2 := by omega
      have hj2 : (recs.length + 1) / 2 < recs.length := by omega
      have hsplit : recs =
          recs.take ((recs.length + 1) / 2) ++ recs.drop ((recs.length + 1) / 2) :=
        (List.take_append_drop _ recs).symm
      have hsort2 : ((recs.take ((recs.length + 1) / 2) ++
          recs.drop ((recs.length + 1) / 2)).map Prod.fst).Pairwise ltK := by
        rw [List.take_append_drop]
        exact hsort
      rw [List.map_append, List.pairwise_append] at hsort2
      obtain ⟨sortL, sortR, hcross⟩ := hsort2
      have hsubT : ∀ x ∈ (recs.take ((recs.length + 1) / 2)).map Prod.fst,
          x ∈ recs.map Prod.fst := by
        intro x hx
        rw [List.mem_map] at hx ⊢
        obtain ⟨r, hr, he⟩ := hx
        exact ⟨r, List.take_subset _ _ hr, he⟩
      have hsubD : ∀ x ∈ (recs.drop ((recs.length + 1) / 2)).map Prod.fst,
          x ∈ recs.map Prod.fst := by
        intro x hx
        rw [List.mem_map] at hx ⊢
        obtain ⟨r, hr, he⟩ := hx
        exact ⟨r, List.drop_subset _ _ hr, he⟩
      rcases hdrop : recs.drop ((recs.length + 1) / 2) with _ | ⟨rb, rtl⟩
      · exfalso
        have := congrArg List.length hdrop
        rw [List.length_drop] at this
        simp only [List.length_nil] at this
        omega
      have htne : recs.take ((recs.length + 1) / 2) ≠ [] := by
        intro he
        have := congrArg List.length he
        rw [List.length_take] at this
        simp only [List.length_nil] at this
        omega
      rw [hdrop] at sortR hcross hsubD
      have hLlt : ∀ r ∈ recs.take ((recs.length + 1) / 2), ltK r.1 rb.1 := by
        intro r hr
        exact hcross r.1 (List.mem_map.mpr ⟨r, hr, rfl⟩) rb.1 (by simp)
      have hRge : ∀ r ∈ rtl, ltK rb.1 r.1 := by
        rw [List.map_cons, List.pairwise_cons] at sortR
        intro r hr
        exact sortR.1 r.1 (List.mem_map.mpr ⟨r, hr, rfl⟩)
      have sortRt : (rtl.map Prod.fst).Pairwise ltK := by
        rw [List.map_cons, List.pairwise_cons] at sortR
        exact sortR.2
      have hrbmem : rb ∈ recs := by
        refine List.drop_subset ((recs.length + 1) / 2) recs ?_
        rw [hdrop]
        simp
      have hrb_in : keysIn lo hi rb.1 := hin rb hrbmem
      obtain ⟨la, hla⟩ := List.exists_mem_of_ne_nil _ htne
      have hobls : oblt lo rb.1 := by
        cases lo with
        | none => trivial
        | some l0 =>
          exact ltK_of_not_lt_of_lt ((hin la (List.take_subset _ _ hla)).1)
            (hLlt la hla)
      have hmemT : k ∉ (recs.take ((recs.length + 1) / 2)).map Prod.fst :=
        fun hx => hmem (hsubT _ hx)
      have hmemRt : k ∉ rtl.map Prod.fst := by
        intro hx
        refine hmem (hsubD _ ?_)
        rw [List.map_cons]
        exact List.mem_cons.mpr (.inr hx)
      simp only [List.headD_cons]
      by_cases hcmp : cmpBytes k rb.1 = .lt
      · rw [if_pos hcmp]
        have hkrb : ltK k rb.1 := hcmp
        simp only [PutOk, entsOf]
        rw [ff_find_eq _ _ sortL, insertIdx_lbIdx_eq_insKV]
        refine ⟨⟨?_, insKV_pairwise sortL hmemT, ?_⟩, ⟨?_, sortR, ?_⟩,
          hobls, hrb_in.2, ?_⟩
        · rw [insKV_length, List.length_take]
          omega
        · intro r hr
          rcases mem_insKV hr with hr | hr
          · rw [hr]
            exact ⟨hk.1, hkrb⟩
          · exact ⟨(hin r (List.take_subset _ _ hr)).1, hLlt r hr⟩
        · have := congrArg List.length hdrop
          rw [List.length_drop] at this
          rw [← this]
          omega
        · intro r hr
          rcases List.mem_cons.mp hr with hr | hr
          · subst hr
            exact ⟨ltK_irrefl _, hrb_in.2⟩
          · exact ⟨ltK_asymm (hRge r hr), (hin r (by
              refine List.drop_subset ((recs.length + 1) / 2) recs ?_
              rw [hdrop]
              simp [hr])).2⟩
        · conv_rhs => rw [hsplit, hdrop]
          rw [insKV_append_keep]
          intro r hr
          rcases List.mem_cons.mp hr with hr | hr
          · subst hr
            exact ltK_asymm hkrb
          · exact ltK_asymm (ltK_trans hkrb (hRge r hr))
      · rw [if_neg hcmp]
        have hne : k ≠ rb.1 := by
          intro he
          exact hmem (he ▸ hsubD rb.1 (by simp))
        have hrbk : ltK rb.1 k := ltK_of_cmp_ne_lt_ne_eq hcmp hne
        rw [ff_find_eq _ _ sortR, insertIdx_lbIdx_eq_insKV]
        have hins : insKV (rb :: rtl) k v = rb :: insKV rtl k v := by
          simp only [insKV, if_pos hrbk]
        rw [hins]
        simp only [List.headD_cons, PutOk, entsOf]
        refine ⟨⟨?_, sortL, ?_⟩, ⟨?_, ?_, ?_⟩, hobls, hrb_in.2, ?_⟩
        · rw [List.length_take]
          omega
        · intro r hr
          exact ⟨(hin r (List.take_subset _ _ hr)).1, hLlt r hr⟩
        · have := congrArg List.length hdrop
          rw [List.length_drop] at this
          simp only [List.length_cons] at this
          simp only [List.length_cons, insKV_length]
          omega
        · rw [List.map_cons, List.pairwise_cons]
          constructor
          · intro x hx
            rw [List.mem_map] at hx
            obtain ⟨r, hr, he⟩ := hx
            subst he
            rcases mem_insKV hr with hr | hr
            · rw [hr]
              exact hrbk
            · exact hRge r hr
          · exact insKV_pairwise sortRt hmemRt
        · intro r hr
          rcases List.mem_cons.mp hr with hr | hr
          · subst hr
            exact ⟨ltK_irrefl _, hrb_in.2⟩
          · rcases mem_insKV hr with hr | hr
            · rw [hr]
              exact ⟨ltK_asymm hrbk, hk.2⟩
            · exact ⟨ltK_asymm (hRge r hr), (hin r (by
                refine List.drop_subset ((recs.length + 1) / 2) recs ?_
                rw [hdrop]
                simp [hr])).2⟩
        · conv_rhs => rw [hsplit, hdrop]
          rw [insKV_append_left, hins]
          intro r hr
          exact ltK_trans (hLlt r hr) hrbk


theorem putT_node_split_lt {cap : Nat} {k : Key} {v : Val}
    {pre post : List (Key × Btree)} {e : Key × Btree} {l r : Btree} {sep : Key}
    {lo hi : Option Key} (hcap : 4 ≤ cap)
    (hlen2 : pre.length + (post.length + 1) = cap)
    (hcm : pre.length < (cap + 1) / 2)
    (hsb : oblt (lastB pre lo) sep)
    (hsa : oabove sep (postB e.1 post hi))
    (hwl : WFT cap (lastB pre lo) (some sep) l)
    (hwr : WFT cap (some sep) (postB e.1 post hi) r)
    (hWE2 : WFE cap lo hi (pre ++ (e.1, r) :: post))
    (hWE3 : WFE cap lo hi (pre ++ (sep, l) :: (e.1, r) :: post))
    (hflatE3 : entsOfL (pre ++ (sep, l) :: (e.1, r) :: post) =
      insKV (entsOfL (pre ++ e :: post)) k v) :
    PutOk cap k v lo hi (.node (pre ++ e :: post))
      (putUp cap pre.length sep l (pre ++ (e.1, r) :: post)) := by
  have hE2c : (pre ++ (e.1, r) :: post).length = cap := by
    simp only [List.length_append, List.length_cons]
    omega
  have hlenE3 : (pre ++ (sep, l) :: (e.1, r) :: post).length = cap + 1 := by
    simp only [List.length_append, List.length_cons]
    omega
  rw [putUp, if_neg (by rw [hE2c]; omega)]
  rw [moveEvenLeft_eq]
  simp only [List.length_nil, Nat.sub_zero, List.nil_append]
  rw [hE2c]
  have hpostne : post ≠ [] := by
    intro hp
    rw [hp] at hlen2
    simp only [List.length_nil] at hlen2
    omega
  have hse : ltK sep e.1 := by
    cases post with
    | nil => exact absurd rfl hpostne
    | cons p ps => exact hsa
  have hlents : (pre ++ (e.1, r) :: post).take ((cap + 1) / 2) =
      pre ++ (e.1, r) :: post.take ((cap + 1) / 2 - pre.length - 1) :=
    take_append_cons pre (e.1, r) post hcm
  have hrents : (pre ++ (e.1, r) :: post).drop ((cap + 1) / 2) =
      post.drop ((cap + 1) / 2 - pre.length - 1) :=
    drop_append_cons pre (e.1, r) post hcm
  have hrlen : (post.drop ((cap + 1) / 2 - pre.length - 1)).length =
      cap - (cap + 1) / 2 := by
    rw [List.length_drop]
    omega
  rcases hq : post.drop ((cap + 1) / 2 - pre.length - 1) with _ | ⟨q, qs⟩
  · exfalso
    rw [hq] at hrlen
    simp only [List.length_nil] at hrlen
    omega
  have hrlen2 : qs.length + 1 = cap - (cap + 1) / 2 := by
    rw [hq] at hrlen
    simpa using hrlen
  have hqs : qs ≠ [] := by
    intro hqe
    rw [hqe] at hrlen2
    simp only [List.length_nil] at hrlen2
    omega
  obtain ⟨hWl2, hWr2, hLb, hLa⟩ := wfe_split_pieces (pre ++ (e.1, r) :: post)
    lo hi ((cap + 1) / 2) hWE2 (by omega) (by rw [hE2c]; omega)
  rw [hlents] at hWl2 hWr2 hLb hLa
  rw [hrents, hq] at hWr2
  have hsepL : ltK sep ((pre ++ (e.1, r) ::
      post.take ((cap + 1) / 2 - pre.length - 1)).getLastD dEnt).1 := by
    rcases hp2 : post.take ((cap + 1) / 2 - pre.length - 1) with _ | ⟨p2, ps2⟩
    · rw [getLastD_concat]
      exact hse
    · rw [hp2] at hWl2
      have hae := wfe_at_entry pre lo _ (e.1, r) (p2 :: ps2) hWl2 (by simp)
      exact ltK_trans hse hae.2
  have hLq : ltK ((pre ++ (e.1, r) ::
      post.take ((cap + 1) / 2 - pre.length - 1)).getLastD dEnt).1 q.1 :=
    ((wfe_cons_iff hqs).mp hWr2).1
  have hsq : ltK sep q.1 := ltK_trans hsepL hLq
  rw [hrents, hq, hlents]
  simp only [List.headD_cons]
  rw [if_pos (show cmpBytes sep q.1 = .lt from hsq)]
  have hngt : ¬ cmpBytes sep ((pre ++ (e.1, r) ::
      post.take ((cap + 1) / 2 - pre.length - 1)).getLastD dEnt).1 = .gt := by
    intro hg
    rw [show cmpBytes sep ((pre ++ (e.1, r) ::
      post.take ((cap + 1) / 2 - pre.length - 1)).getLastD dEnt).1 =
      Ordering.lt from hsepL] at hg
    simp at hg
  rw [if_neg hngt]
  have hsorted := (wfe_sKeys _ _ _ hWl2).1
  simp only [ff_find_eq _ _ hsorted]
  have hpos1 : lbIdx (sKeys (pre ++ (e.1, r) ::
      post.take ((cap + 1) / 2 - pre.length - 1))) sep = pre.length := by
    refine wfe_insert_pos pre lo _ (e.1, r) _ sep hWl2 hsb ?_
    rcases hp2 : post.take ((cap + 1) / 2 - pre.length - 1) with _ | ⟨p2, ps2⟩
    · rw [getLastD_concat]
      exact hse
    · exact hse
  rw [hpos1, insertIdx_append_len pre ((e.1, r) ::
    post.take ((cap + 1) / 2 - pre.length - 1)) (sep, l)]
  have hE3t : (pre ++ (sep, l) :: (e.1, r) :: post).take ((cap + 1) / 2 + 1) =
      pre ++ (sep, l) :: (e.1, r) ::
        post.take ((cap + 1) / 2 - pre.length - 1) := by
    rw [take_append_cons pre (sep, l) ((e.1, r) :: post) (by omega)]
    rw [show (cap + 1) / 2 + 1 - pre.length - 1 =
      ((cap + 1) / 2 - pre.length - 1) + 1 from by omega, List.take_succ_cons]
  have hE3d : (pre ++ (sep, l) :: (e.1, r) :: post).drop ((cap + 1) / 2 + 1) =
      q :: qs := by
    rw [drop_append_cons pre (sep, l) ((e.1, r) :: post) (by omega)]
    rw [show (cap + 1) / 2 + 1 - pre.length - 1 =
      ((cap + 1) / 2 - pre.length - 1) + 1 from by omega, List.drop_succ_cons]
    exact hq
  obtain ⟨c1, c2, c3, c4, c5⟩ := @node_split_ok cap lo hi
    (pre ++ (sep, l) :: (e.1, r) :: post) ((cap + 1) / 2 + 1) hWE3
    (by omega) (by rw [hlenE3]; omega) (by omega) (by rw [hlenE3]; omega)
  rw [hE3t] at c1 c2 c3 c4 c5
  rw [hE3d] at c2 c5
  simp only [PutOk, entsOf]
  refine ⟨c1, c2, c3, c4, ?_⟩
  rw [c5, hflatE3]

theorem putT_node_split_eq {cap : Nat} {k : Key} {v : Val}
    {pre post : List (Key × Btree)} {e : Key × Btree} {l r : Btree} {sep : Key}
    {lo hi : Option Key} (hcap : 4 ≤ cap)
    (hlen2 : pre.length + (post.length + 1) = cap)
    (hcm : pre.length = (cap + 1) / 2)
    (hsb : oblt (lastB pre lo) sep)
    (hsa : oabove sep (postB e.1 post hi))
    (hwl : WFT cap (lastB pre lo) (some sep) l)
    (hwr : WFT cap (some sep) (postB e.1 post hi) r)
    (hWE2 : WFE cap lo hi (pre ++ (e.1, r) :: post))
    (hWE3 : WFE cap lo hi (pre ++ (sep, l) :: (e.1, r) :: post))
    (hflatE3 : entsOfL (pre ++ (sep, l) :: (e.1, r) :: post) =
      insKV (entsOfL (pre ++ e :: post)) k v) :
    PutOk cap k v lo hi (.node (pre ++ e :: post))
      (putUp cap pre.length sep l (pre ++ (e.1, r) :: post)) := by
  have hE2c : (pre ++ (e.1, r) :: post).length = cap := by
    simp only [List.length_append, List.length_cons]
    omega
  have hlenE3 : (pre ++ (sep, l) :: (e.1, r) :: post).length = cap + 1 := by
    simp only [List.length_append, List.length_cons]
    omega
  rw [putUp, if_neg (by rw [hE2c]; omega)]
  rw [moveEvenLeft_eq]
  simp only [List.length_nil, Nat.sub_zero, List.nil_append]
  rw [hE2c]
  have hpostne : post ≠ [] := by
    intro hp
    rw [hp] at hlen2
    simp only [List.length_nil] at hlen2
    omega
  have hse : ltK sep e.1 := by
    cases post with
    | nil => exact absurd rfl hpostne
    | cons p ps => exact hsa
  have hprene : pre ≠ [] := by
    intro hp
    rw [hp] at hcm
    simp only [List.length_nil] at hcm
    omega
  have hlents : (pre ++ (e.1, r) :: post).take ((cap + 1) / 2) = pre := by
    rw [← hcm]
    exact List.take_left pre _
  have hrents : (pre ++ (e.1, r) :: post).drop ((cap + 1) / 2) =
      (e.1, r) :: post := by
    rw [← hcm]
    exact List.drop_left pre _
  have hgl : ltK (pre.getLastD dEnt).1 sep := by
    have hx := hsb
    rw [lastB_of_ne_nil hprene] at hx
    exact hx
  rw [hrents, hlents]
  simp only [List.headD_cons]
  rw [if_pos (show cmpBytes sep e.1 = .lt from hse)]
  rw [if_pos (cmpBytes_gt_iff.mpr hgl)]
  have hE3t : (pre ++ (sep, l) :: (e.1, r) :: post).take ((cap + 1) / 2 + 1) =
      pre ++ [(sep, l)] := by
    rw [take_append_cons pre (sep, l) ((e.1, r) :: post) (by omega)]
    rw [show (cap + 1) / 2 + 1 - pre.length - 1 = 0 from by omega,
      List.take_zero]
  have hE3d : (pre ++ (sep, l) :: (e.1, r) :: post).drop ((cap + 1) / 2 + 1) =
      (e.1, r) :: post := by
    rw [drop_append_cons pre (sep, l) ((e.1, r) :: post) (by omega)]
    rw [show (cap + 1) / 2 + 1 - pre.length - 1 = 0 from by omega,
      List.drop_zero]
  obtain ⟨c1, c2, c3, c4, c5⟩ := @node_split_ok cap lo hi
    (pre ++ (sep, l) :: (e.1, r) :: post) ((cap + 1) / 2 + 1) hWE3
    (by omega) (by rw [hlenE3]; omega) (by omega) (by rw [hlenE3]; omega)
  rw [hE3t] at c1 c2 c3 c4 c5
  rw [hE3d] at c2 c5
  rw [getLastD_concat] at c1 c2 c3 c4
  simp only [PutOk, entsOf]
  refine ⟨c1, c2, c3, c4, ?_⟩
  rw [c5, hflatE3]

theorem putT_node_split_gt {cap : Nat} {k : Key} {v : Val}
    {pre post : List (Key × Btree)} {e : Key × Btree} {l r : Btree} {sep : Key}
    {lo hi : Option Key} (hcap : 4 ≤ cap)
    (hlen2 : pre.length + (post.length + 1) = cap)
    (hcm : (cap + 1) / 2 < pre.length)
    (hsb : oblt (lastB pre lo) sep)
    (hsa : oabove sep (postB e.1 post hi))
    (hwl : WFT cap (lastB pre lo) (some sep) l)
    (hwr : WFT cap (some sep) (postB e.1 post hi) r)
    (hWE2 : WFE cap lo hi (pre ++ (e.1, r) :: post))
    (hWE3 : WFE cap lo hi (pre ++ (sep, l) :: (e.1, r) :: post))
    (hflatE3 : entsOfL (pre ++ (sep, l) :: (e.1, r) :: post) =
      insKV (entsOfL (pre ++ e :: post)) k v) :
    PutOk cap k v lo hi (.node (pre ++ e :: post))
      (putUp cap pre.length sep l (pre ++ (e.1, r) :: post)) := by
  have hE2c : (pre ++ (e.1, r) :: post).length = cap := by
    simp only [List.length_append, List.length_cons]
    omega
  have hlenE3 : (pre ++ (sep, l) :: (e.1, r) :: post).length = cap + 1 := by
    simp only [List.length_append, List.length_cons]
    omega
  rw [putUp, if_neg (by rw [hE2c]; omega)]
  rw [moveEvenLeft_eq]
  simp only [List.length_nil, Nat.sub_zero, List.nil_append]
  rw [hE2c]
  have hlents : (pre ++ (e.1, r) :: post).take ((cap + 1) / 2) =
      pre.take ((cap + 1) / 2) := List.take_append_of_le_length (le_of_lt hcm)
  have hrents : (pre ++ (e.1, r) :: post).drop ((cap + 1) / 2) =
      pre.drop ((cap + 1) / 2) ++ (e.1, r) :: post :=
    List.drop_append_of_le_length (le_of_lt hcm)
  have hdropne : pre.drop ((cap + 1) / 2) ≠ [] := by
    intro hd
    have hdl := congrArg List.length hd
    rw [List.length_drop] at hdl
    simp only [List.length_nil] at hdl
    omega
  have hprene : pre ≠ [] := by
    intro hp
    rw [hp] at hcm
    simp only [List.length_nil] at hcm
    omega
  obtain ⟨hWl2, hWr2, hLb, hLa⟩ := wfe_split_pieces (pre ++ (e.1, r) :: post)
    lo hi ((cap + 1) / 2) hWE2 (by omega) (by rw [hE2c]; omega)
  rw [hlents] at hWl2 hWr2 hLb hLa
  rw [hrents] at hWr2
  have hlast : lastB (pre.drop ((cap + 1) / 2))
      (some ((pre.take ((cap + 1) / 2)).getLastD dEnt).1) = lastB pre lo := by
    unfold lastB
    rw [getLast?_drop_of_ne_nil hdropne]
    obtain ⟨x, hx⟩ : ∃ x, pre.getLast? = some x :=
      ⟨_, List.getLast?_eq_getLast pre hprene⟩
    rw [hx]
  have hsb2 : oblt (lastB (pre.drop ((cap + 1) / 2))
      (some ((pre.take ((cap + 1) / 2)).getLastD dEnt).1)) sep := by
    rw [hlast]
    exact hsb
  have hkeys := wfe_pre_keys_lt (pre.drop ((cap + 1) / 2)) _ hi (e.1, r) post
    sep hWr2 hsb2
  rcases hq : pre.drop ((cap + 1) / 2) with _ | ⟨q, qs⟩
  · exact absurd hq hdropne
  rw [hq] at hWr2 hsb2 hkeys
  have hqlt : ltK q.1 sep := hkeys q.1 (by simp)
  have hngt : ¬ cmpBytes sep q.1 = .lt := by
    rw [cmpBytes_gt_iff.mpr hqlt]
    decide
  rw [hrents, hq, hlents]
  simp only [List.cons_append, List.headD_cons]
  rw [if_neg hngt]
  have hsorted := (wfe_sKeys _ _ _ hWr2).1
  simp only [List.cons_append] at hsorted
  simp only [ff_find_eq _ _ hsorted]
  have hpos1 : lbIdx (sKeys (q :: (qs ++ (e.1, r) :: post))) sep =
      qs.length + 1 := by
    have hp0 := wfe_insert_pos (q :: qs) _ hi (e.1, r) post sep hWr2 hsb2 hsa
    simpa using hp0
  rw [hpos1]
  rw [List.insertIdx_succ_cons, insertIdx_append_len qs ((e.1, r) :: post)
    (sep, l)]
  have hE3t : (pre ++ (sep, l) :: (e.1, r) :: post).take ((cap + 1) / 2) =
      pre.take ((cap + 1) / 2) := List.take_append_of_le_length (by omega)
  have hE3d : (pre ++ (sep, l) :: (e.1, r) :: post).drop ((cap + 1) / 2) =
      q :: (qs ++ (sep, l) :: (e.1, r) :: post) := by
    rw [List.drop_append_of_le_length (by omega), hq]
    simp
  obtain ⟨c1, c2, c3, c4, c5⟩ := @node_split_ok cap lo hi
    (pre ++ (sep, l) :: (e.1, r) :: post) ((cap + 1) / 2) hWE3
    (by omega) (by rw [hlenE3]; omega) (by omega) (by rw [hlenE3]; omega)
  rw [hE3t] at c1 c2 c3 c4 c5
  rw [hE3d] at c2 c5
  simp only [PutOk, entsOf]
  refine ⟨c1, c2, c3, c4, ?_⟩
  rw [c5, hflatE3]

theorem putT_node_ok {cap : Nat} {k : Key} {v : Val}
    (ents : List (Key × Btree))
    (ih : ∀ e ∈ ents, ∀ lo hi, WFT cap lo hi e.2 → keysIn lo hi k →
      PutOk cap k v lo hi e.2 (putT cap k v e.2))
    {lo hi : Option Key} (hcap : 4 ≤ cap)
    (h : WFT cap lo hi (.node ents)) (hk : keysIn lo hi k) :
    PutOk cap k v lo hi (.node ents) (putT cap k v (.node ents)) := by
  obtain ⟨hpos, hcaplen, hwfe⟩ := h
  obtain ⟨pre, e, post, heq, hidx, hwf, hin, hpre, hpost⟩ :=
    wfe_decomp ents lo hi k hwfe hk
  have hlt : childIdx ents k < ents.length := by
    rw [hidx, heq]
    simp
  rw [putT_node_eq cap k v ents hlt]
  have hget : ents.get ⟨childIdx ents k, hlt⟩ = e := by
    have h3 : ∀ (j : Nat) (hj : j < ents.length), j = pre.length →
        ents.get ⟨j, hj⟩ = e := by
      subst heq
      intro j hj hje
      subst hje
      exact get_append_len pre e post hj
    exact h3 _ hlt hidx
  rw [hget]
  have hcih := ih e (by rw [heq]; simp) _ _ hwf hin
  rcases hcr : putT cap k v e.2 with _ | c2 | ⟨l, sep, r⟩
  · rw [hcr] at hcih
    show PutOk cap k v lo hi (.node ents) PutRes.keyExists
    simp only [PutOk] at hcih ⊢
    simp only [entsOf]
    rw [heq, entsOfL_append, entsOfL_cons, List.map_append, List.map_append]
    exact List.mem_append.mpr (.inr (List.mem_append.mpr (.inl hcih)))
  · rw [hcr] at hcih
    show PutOk cap k v lo hi (.node ents)
      (.done (.node (ents.set (childIdx ents k) (e.1, c2))))
    simp only [PutOk] at hcih ⊢
    obtain ⟨hwfc2, hflat⟩ := hcih
    have hset : ents.set (childIdx ents k) (e.1, c2) =
        pre ++ (e.1, c2) :: post := by
      rw [hidx, heq]
      exact set_append_len pre e (e.1, c2) post
    rw [hset]
    constructor
    · refine ⟨?_, ?_, ?_⟩
      · rw [show (pre ++ (e.1, c2) :: post).length = ents.length from by
          rw [heq]; simp]
        exact hpos
      · rw [show (pre ++ (e.1, c2) :: post).length = ents.length from by
          rw [heq]; simp]
        exact hcaplen
      · exact wfe_glue_replace pre lo hi e post c2 (heq ▸ hwfe) hwfc2
    · simp only [entsOf]
      rw [heq, entsOfL_append, entsOfL_cons, ← List.append_assoc]
      exact entsOfL_mid_insKV hpre hpost hflat
  · rw [hcr] at hcih
    show PutOk cap k v lo hi (.node ents)
      (putUp cap (childIdx ents k) sep l (ents.set (childIdx ents k) (e.1, r)))
    simp only [PutOk] at hcih
    obtain ⟨hwl, hwr, hsb, hsa, hflat⟩ := hcih
    have hset : ents.set (childIdx ents k) (e.1, r) =
        pre ++ (e.1, r) :: post := by
      rw [hidx, heq]
      exact set_append_len pre e (e.1, r) post
    rw [hset, hidx, heq]
    have hWE2 : WFE cap lo hi (pre ++ (e.1, r) :: post) :=
      wfe_glue_replace pre lo hi e post r (heq ▸ hwfe)
        (wft_mono r _ _ _ _ hwr (loWeaker_of_oblt hsb) (hiWeaker_refl _))
    have hWE3 : WFE cap lo hi (pre ++ (sep, l) :: (e.1, r) :: post) :=
      wfe_glue_insert pre lo hi e post sep l r (heq ▸ hwfe) hsb hsa hwl hwr
    have hflatE3 : entsOfL (pre ++ (sep, l) :: (e.1, r) :: post) =
        insKV (entsOfL (pre ++ e :: post)) k v := by
      rw [entsOfL_append, entsOfL_cons, entsOfL_cons]
      rw [show entsOf (sep, l).2 ++ (entsOf (e.1, r).2 ++ entsOfL post) =
        (entsOf l ++ entsOf r) ++ entsOfL post from by rw [List.append_assoc]]
      rw [hflat, ← List.append_assoc]
      exact entsOfL_mid_insKV hpre hpost rfl
    have hlen2 : pre.length + (post.length + 1) = cap ∨
        (pre ++ (e.1, r) :: post).length < cap := by
      have hle : (pre ++ (e.1, r) :: post).length = ents.length := by
        rw [heq]
        simp
      by_cases hless : (pre ++ (e.1, r) :: post).length < cap
      · exact .inr hless
      · refine .inl ?_
        have : (pre ++ (e.1, r) :: post).length = cap := by omega
        simpa using this
    by_cases hfit : (pre ++ (e.1, r) :: post).length < cap
    · rw [putUp, if_pos hfit]
      rw [insertIdx_append_len pre ((e.1, r) :: post) (sep, l)]
      simp only [PutOk]
      refine ⟨⟨?_, ?_, hWE3⟩, ?_⟩
      · simp
      · have hfl := hfit
        simp only [List.length_append, List.length_cons] at hfl ⊢
        omega
      · simp only [entsOf]
        exact hflatE3
    · have hlen2' : pre.length + (post.length + 1) = cap := by
        rcases hlen2 with hl2 | hl2
        · exact hl2
        · exact absurd hl2 hfit
      rcases Nat.lt_trichotomy pre.length ((cap + 1) / 2) with hcm | hcm | hcm
      · exact putT_node_split_lt hcap hlen2' hcm hsb hsa hwl hwr hWE2 hWE3
          hflatE3
      · exact putT_node_split_eq hcap hlen2' hcm hsb hsa hwl hwr hWE2 hWE3
          hflatE3
      · exact putT_node_split_gt hcap hlen2' hcm hsb hsa hwl hwr hWE2 hWE3
          hflatE3

theorem putT_spec {cap : Nat} (k : Key) (v : Val) (t : Btree) :
    ∀ lo hi, 4 ≤ cap → WFT cap lo hi t → keysIn lo hi k →
    PutOk cap k v lo hi t (putT cap k v t) := by
  induction t using Btree.inductionOn with
  | hleaf recs =>
    intro lo hi hcap h hk
    exact putT_leaf_ok (by omega) h hk
  | hnode ents ihm =>
    intro lo hi hcap h hk
    exact putT_node_ok ents
      (fun e he lo' hi' hw hk' => ihm e he lo' hi' hcap hw hk') hcap h hk

theorem ersKV_sublist (l : List Rec) (k : Key) :
    List.Sublist (ersKV l k) l := by
  induction l with
  | nil => simp [ersKV]
  | cons r rest ih =>
    simp only [ersKV]
    by_cases he : r.1 = k
    · rw [if_pos he]
      exact List.sublist_cons_self r rest
    · rw [if_neg he]
      exact ih.cons₂ r

theorem ersKV_not_mem {recs : List Rec} {k : Key}
    (hs : (recs.map Prod.fst).Pairwise ltK) :
    k ∉ (ersKV recs k).map Prod.fst := by
  induction recs with
  | nil => simp [ersKV]
  | cons r rest ih =>
    rw [List.map_cons, List.pairwise_cons] at hs
    simp only [ersKV]
    by_cases he : r.1 = k
    · rw [if_pos he]
      intro hm
      exact ltK_irrefl k (he ▸ hs.1 k hm)
    · rw [if_neg he]
      rw [List.map_cons]
      intro hm
      rcases List.mem_cons.mp hm with hm | hm
      · exact he hm.symm
      · exact ih hs.2 hm

theorem ersKV_nil_cases {recs : List Rec} {k : Key}
    (hm : k ∈ recs.map Prod.fst) (h : ersKV recs k = []) :
    ∃ v', recs = [(k, v')] := by
  cases recs with
  | nil => simp at hm
  | cons r rest =>
    simp only [ersKV] at h
    by_cases he : r.1 = k
    · rw [if_pos he] at h
      subst h
      refine ⟨r.2, ?_⟩
      rw [← he]
    · rw [if_neg he] at h
      exact absurd h (List.cons_ne_nil _ _)

theorem eraseIdx_lbIdx_eq_ersKV {recs : List Rec} {k : Key}
    (hs : (recs.map Prod.fst).Pairwise ltK) (hm : k ∈ recs.map Prod.fst) :
    recs.eraseIdx (lbIdx (recs.map Prod.fst) k) = ersKV recs k := by
  induction recs with
  | nil => simp at hm
  | cons r rest ih =>
    rw [List.map_cons, List.pairwise_cons] at hs
    rw [List.map_cons, List.mem_cons] at hm
    rw [List.map_cons, lbIdx_cons]
    by_cases he : r.1 = k
    · rw [if_neg (he ▸ ltK_irrefl k), List.eraseIdx_cons_zero]
      simp only [ersKV, if_pos he]
    · have hm' : k ∈ rest.map Prod.fst := by
        rcases hm with hm | hm
        · exact absurd hm.symm he
        · exact hm
      rw [if_pos (hs.1 k hm'), List.eraseIdx_cons_succ, ih hs.2 hm']
      simp only [ersKV, if_neg he]

theorem eraseIdx_append_len {α : Type} (pre : List α) (e : α) (post : List α) :
    (pre ++ e :: post).eraseIdx pre.length = pre ++ post := by
  induction pre with
  | nil => simp
  | cons f pre' ih =>
    simp only [List.cons_append, List.length_cons, List.eraseIdx_cons_succ]
    rw [ih]

theorem entsOfL_mid_ersKV {pre post : List (Key × Btree)} {B : List Rec}
    {k : Key} {e : Key × Btree}
    (hpre : ∀ r ∈ entsOfL pre, ltK r.1 k)
    (hpost : ∀ r ∈ entsOfL post, ltK k r.1)
    (hB : B = ersKV (entsOf e.2) k) :
    entsOfL pre ++ B ++ entsOfL post = ersKV (entsOfL (pre ++ e :: post)) k := by
  rw [entsOfL_append, entsOfL_cons]
  rw [ersKV_append_left (fun r hr => ltK_ne (hpre r hr))]
  rw [ersKV_append_right (fun r hr => (ltK_ne (hpost r hr)).symm)]
  rw [hB, List.append_assoc]

theorem delT_leaf_eq (k : Key) (recs : List Rec) :
    delT k (.leaf recs) =
      (if (ff_find (recs.map Prod.fst) k).1 then
        (if (recs.eraseIdx (ff_find (recs.map Prod.fst) k).2).isEmpty then
          DelRes.emptied
         else .done (.leaf (recs.eraseIdx (ff_find (recs.map Prod.fst) k).2)))
       else .notFound) := by
  rw [delT]

theorem delT_node_eq (k : Key) (ents : List (Key × Btree))
    (h : childIdx ents k < ents.length) :
    delT k (.node ents) =
      (match delT k (ents.get ⟨childIdx ents k, h⟩).2 with
       | .notFound => .notFound
       | .done c2 => .done (.node (ents.set (childIdx ents k)
           ((ents.get ⟨childIdx ents k, h⟩).1, c2)))
       | .emptied =>
         if (ents.eraseIdx (childIdx ents k)).isEmpty then DelRes.emptied
         else .done (.node (ents.eraseIdx (childIdx ents k)))) := by
  rw [delT]
  rw [dif_pos h]

/-- Correctness of one `delT` step on the window `[lo, hi)`: a `notFound`
verdict means the key is absent; a `done` tree is well-formed over the same
window and flattens to the sorted erase; an `emptied` verdict means the
subtree held exactly the one record being deleted. -/
def DelOk (cap : Nat) (k : Key) (lo hi : Option Key) (t : Btree) :
    DelRes → Prop
  | .notFound => k ∉ (entsOf t).map Prod.fst
  | .done t2 => WFT cap lo hi t2 ∧ entsOf t2 = ersKV (entsOf t) k
  | .emptied => ∃ v', entsOf t = [(k, v')]

theorem delT_leaf_ok {cap : Nat} {k : Key} {recs : List Rec}
    {lo hi : Option Key} (h : WFT cap lo hi (.leaf recs)) :
    DelOk cap k lo hi (.leaf recs) (delT k (.leaf recs)) := by
  obtain ⟨hlen, hsort, hin⟩ := h
  rw [delT_leaf_eq, ff_find_eq _ _ hsort]
  simp only [decide_eq_true_eq]
  by_cases hm : k ∈ recs.map Prod.fst
  · rw [if_pos hm, eraseIdx_lbIdx_eq_ersKV hsort hm]
    by_cases hemp : (ersKV recs k).isEmpty
    · rw [if_pos hemp]
      simp only [DelOk, entsOf]
      exact ersKV_nil_cases hm (List.isEmpty_iff.mp hemp)
    · rw [if_neg hemp]
      simp only [DelOk, entsOf]
      refine ⟨⟨?_, ?_, ?_⟩, trivial⟩
      · exact le_trans (ersKV_sublist recs k).length_le hlen
      · exact hsort.sublist ((ersKV_sublist recs k).map Prod.fst)
      · exact fun r hr => hin r ((ersKV_sublist recs k).subset hr)
  · rw [if_neg hm]
    simp only [DelOk, entsOf]
    exact hm

theorem delT_node_ok {cap : Nat} {k : Key} (ents : List (Key × Btree))
    (ih : ∀ e ∈ ents, ∀ lo hi, WFT cap lo hi e.2 → keysIn lo hi k →
      DelOk cap k lo hi e.2 (delT k e.2))
    {lo hi : Option Key}
    (h : WFT cap lo hi (.node ents)) (hk : keysIn lo hi k) :
    DelOk cap k lo hi (.node ents) (delT k (.node ents)) := by
  obtain ⟨hpos, hcaplen, hwfe⟩ := h
  obtain ⟨pre, e, post, heq, hidx, hwf, hin, hpre, hpost⟩ :=
    wfe_decomp ents lo hi k hwfe hk
  have hlt : childIdx ents k < ents.length := by
    rw [hidx, heq]
    simp
  rw [delT_node_eq k ents hlt]
  have hget : ents.get ⟨childIdx ents k, hlt⟩ = e := by
    have h3 : ∀ (j : Nat) (hj : j < ents.length), j = pre.length →
        ents.get ⟨j, hj⟩ = e := by
      subst heq
      intro j hj hje
      subst hje
      exact get_append_len pre e post hj
    exact h3 _ hlt hidx
  rw [hget]
  have hcih := ih e (by rw [heq]; simp) _ _ hwf hin
  rcases hcr : delT k e.2 with _ | c2 | _
  · rw [hcr] at hcih
    show DelOk cap k lo hi (.node ents) DelRes.notFound
    simp only [DelOk] at hcih ⊢
    simp only [entsOf]
    rw [heq, entsOfL_append, entsOfL_cons, List.map_append, List.map_append]
    intro hmm
    rcases List.mem_append.mp hmm with hA | h2
    · obtain ⟨rr, hr, he⟩ := List.mem_map.mp hA
      exact ltK_irrefl k (he ▸ hpre rr hr)
    rcases List.mem_append.mp h2 with hB | hC
    · exact hcih hB
    · obtain ⟨rr, hr, he⟩ := List.mem_map.mp hC
      exact ltK_irrefl k (he ▸ hpost rr hr)
  · rw [hcr] at hcih
    show DelOk cap k lo hi (.node ents)
      (.done (.node (ents.set (childIdx ents k) (e.1, c2))))
    simp only [DelOk] at hcih ⊢
    obtain ⟨hwfc2, hflat⟩ := hcih
    have hset : ents.set (childIdx ents k) (e.1, c2) =
        pre ++ (e.1, c2) :: post := by
      rw [hidx, heq]
      exact set_append_len pre e (e.1, c2) post
    rw [hset]
    constructor
    · refine ⟨?_, ?_, ?_⟩
      · rw [show (pre ++ (e.1, c2) :: post).length = ents.length from by
          rw [heq]; simp]
        exact hpos
      · rw [show (pre ++ (e.1, c2) :: post).length = ents.length from by
          rw [heq]; simp]
        exact hcaplen
      · exact wfe_glue_replace pre lo hi e post c2 (heq ▸ hwfe) hwfc2
    · simp only [entsOf]
      rw [heq, entsOfL_append, entsOfL_cons, ← List.append_assoc]
      exact entsOfL_mid_ersKV hpre hpost hflat
  · rw [hcr] at hcih
    show DelOk cap k lo hi (.node ents)
      (if (ents.eraseIdx (childIdx ents k)).isEmpty then DelRes.emptied
       else .done (.node (ents.eraseIdx (childIdx ents k))))
    simp only [DelOk] at hcih
    obtain ⟨v', hv⟩ := hcih
    have herase : ents.eraseIdx (childIdx ents k) = pre ++ post := by
      rw [hidx, heq]
      exact eraseIdx_append_len pre e post
    rw [herase]
    have hflat2 : entsOfL (pre ++ post) =
        ersKV (entsOfL (pre ++ e :: post)) k := by
      rw [entsOfL_append]
      rw [show entsOfL pre ++ entsOfL post =
        entsOfL pre ++ [] ++ entsOfL post from by simp]
      refine entsOfL_mid_ersKV hpre hpost ?_
      rw [hv]
      simp [ersKV]
    by_cases hemp : (pre ++ post).isEmpty
    · rw [if_pos hemp]
      simp only [DelOk]
      obtain ⟨hp1, hp2⟩ := List.append_eq_nil.mp (List.isEmpty_iff.mp hemp)
      refine ⟨v', ?_⟩
      simp only [entsOf]
      rw [heq, hp1, hp2]
      simp only [List.nil_append, entsOfL, List.append_nil]
      exact hv
    · rw [if_neg hemp]
      simp only [DelOk, entsOf]
      have hne : pre ++ post ≠ [] := by
        intro hq
        rw [hq] at hemp
        exact hemp rfl
      refine ⟨⟨?_, ?_, wfe_glue_erase pre lo hi e post (heq ▸ hwfe) hne⟩, ?_⟩
      · exact List.length_pos.mpr hne
      · have hle : (pre ++ post).length ≤ ents.length := by
          rw [heq]
          simp only [List.length_append, List.length_cons]
          omega
        omega
      · rw [heq]
        exact hflat2

theorem delT_spec {cap : Nat} (k : Key) (t : Btree) :
    ∀ lo hi, WFT cap lo hi t → keysIn lo hi k →
    DelOk cap k lo hi t (delT k t) := by
  induction t using Btree.inductionOn with
  | hleaf recs =>
    intro lo hi h _
    exact delT_leaf_ok h
  | hnode ents ihm =>
    intro lo hi h hk
    exact delT_node_ok ents (fun e he lo' hi' hw hk' => ihm e he lo' hi' hw hk')
      h hk

theorem putT_keyExists {cap : Nat} (k : Key) (v : Val) (t : Btree) :
    ∀ lo hi, WFT cap lo hi t → keysIn lo hi k →
    k ∈ (entsOf t).map Prod.fst → putT cap k v t = .keyExists := by
  induction t using Btree.inductionOn with
  | hleaf recs =>
    intro lo hi h hk hm
    obtain ⟨hlen, hsort, hin⟩ := h
    simp only [entsOf] at hm
    rw [putT_leaf_eq, ff_find_eq _ _ hsort]
    simp only [decide_eq_true_eq]
    rw [if_pos hm]
  | hnode ents ihm =>
    intro lo hi h hk hm
    obtain ⟨hpos, hcaplen, hwfe⟩ := h
    obtain ⟨pre, e, post, heq, hidx, hwf, hin, hpre, hpost⟩ :=
      wfe_decomp ents lo hi k hwfe hk
    have hlt : childIdx ents k < ents.length := by
      rw [hidx, heq]
      simp
    rw [putT_node_eq cap k v ents hlt]
    have hget : ents.get ⟨childIdx ents k, hlt⟩ = e := by
      have h3 : ∀ (j : Nat) (hj : j < ents.length), j = pre.length →
          ents.get ⟨j, hj⟩ = e := by
        subst heq
        intro j hj hje
        subst hje
        exact get_append_len pre e post hj
      exact h3 _ hlt hidx
    rw [hget]
    have hmc : k ∈ (entsOf e.2).map Prod.fst := by
      simp only [entsOf] at hm
      rw [heq, entsOfL_append, entsOfL_cons, List.map_append,
        List.map_append] at hm
      rcases List.mem_append.mp hm with hA | h2
      · obtain ⟨rr, hr, he⟩ := List.mem_map.mp hA
        exact absurd (he ▸ hpre rr hr) (ltK_irrefl k)
      rcases List.mem_append.mp h2 with hB | hC
      · exact hB
      · obtain ⟨rr, hr, he⟩ := List.mem_map.mp hC
        exact absurd (he ▸ hpost rr hr) (ltK_irrefl k)
    rw [ihm e (by rw [heq]; simp) _ _ hwf hin hmc]

theorem delT_notFound {cap : Nat} (k : Key) (t : Btree) :
    ∀ lo hi, WFT cap lo hi t → keysIn lo hi k →
    k ∉ (entsOf t).map Prod.fst → delT k t = .notFound := by
  induction t using Btree.inductionOn with
  | hleaf recs =>
    intro lo hi h hk hm
    obtain ⟨hlen, hsort, hin⟩ := h
    simp only [entsOf] at hm
    rw [delT_leaf_eq, ff_find_eq _ _ hsort]
    simp only [decide_eq_true_eq]
    rw [if_neg hm]
  | hnode ents ihm =>
    intro lo hi h hk hm
    obtain ⟨hpos, hcaplen, hwfe⟩ := h
    obtain ⟨pre, e, post, heq, hidx, hwf, hin, hpre, hpost⟩ :=
      wfe_decomp ents lo hi k hwfe hk
    have hlt : childIdx ents k < ents.length := by
      rw [hidx, heq]
      simp
    rw [delT_node_eq k ents hlt]
    have hget : ents.get ⟨childIdx ents k, hlt⟩ = e := by
      have h3 : ∀ (j : Nat) (hj : j < ents.length), j = pre.length →
          ents.get ⟨j, hj⟩ = e := by
        subst heq
        intro j hj hje
        subst hje
        exact get_append_len pre e post hj
      exact h3 _ hlt hidx
    rw [hget]
    have hmc : k ∉ (entsOf e.2).map Prod.fst := by
      intro hmm
      refine hm ?_
      simp only [entsOf]
      rw [heq, entsOfL_append, entsOfL_cons, List.map_append, List.map_append]
      exact List.mem_append.mpr (.inr (List.mem_append.mpr (.inl hmm)))
    rw [ihm e (by rw [heq]; simp) _ _ hwf hin hmc]

theorem btree_put_ok {cap : Nat} (k : Key) (v : Val) (t : Btree)
    (hcap : 4 ≤ cap) (h : WFT cap none none t) :
    (k ∈ treeKeys t → btree_put cap k v t = (.keyExists, t)) ∧
    (k ∉ treeKeys t →
      (btree_put cap k v t).1 = .success ∧
      WFT cap none none (btree_put cap k v t).2 ∧
      entsOf (btree_put cap k v t).2 = insKV (entsOf t) k v) := by
  constructor
  · intro hm
    simp only [treeKeys] at hm
    rw [btree_put, putT_keyExists k v t none none h ⟨trivial, trivial⟩ hm]
  · intro hm
    simp only [treeKeys] at hm
    have hp := putT_spec k v t none none hcap h ⟨trivial, trivial⟩
    rcases hcr : putT cap k v t with _ | t2 | ⟨l, sep, r⟩
    · rw [hcr] at hp
      simp only [PutOk] at hp
      exact absurd hp hm
    · rw [hcr] at hp
      simp only [PutOk] at hp
      simp only [btree_put, hcr]
      exact ⟨trivial, hp.1, hp.2⟩
    · rw [hcr] at hp
      simp only [PutOk] at hp
      obtain ⟨hwl, hwr, _, _, hflat⟩ := hp
      simp only [btree_put, hcr]
      refine ⟨trivial, ⟨by simp, by
        simp only [List.length_cons, List.length_nil]; omega, ?_⟩, ?_⟩
      · rw [wfe_cons_iff (by simp)]
        refine ⟨trivial, trivial, hwl, ?_⟩
        simp only [WFE]
        exact hwr
      · simp only [entsOf, entsOfL_cons, entsOfL, List.append_nil]
        exact hflat

theorem btree_del_node_notFound (k : Key) (ents : List (Key × Btree))
    (h : childIdx ents k < ents.length)
    (hcr : delT k (ents.get ⟨childIdx ents k, h⟩).2 = .notFound) :
    btree_del k (.node ents) = (.keyNotFound, .node ents) := by
  simp only [btree_del]
  rw [dif_pos h, hcr]

theorem btree_del_node_done (k : Key) (ents : List (Key × Btree))
    (h : childIdx ents k < ents.length) (c2 : Btree)
    (hcr : delT k (ents.get ⟨childIdx ents k, h⟩).2 = .done c2) :
    btree_del k (.node ents) = (.success, .node (ents.set (childIdx ents k)
      ((ents.get ⟨childIdx ents k, h⟩).1, c2))) := by
  simp only [btree_del]
  rw [dif_pos h, hcr]

theorem btree_del_node_emptied (k : Key) (ents : List (Key × Btree))
    (h : childIdx ents k < ents.length)
    (hcr : delT k (ents.get ⟨childIdx ents k, h⟩).2 = .emptied) :
    btree_del k (.node ents) =
      (if 1 < (ents.eraseIdx (childIdx ents k)).length then
        (.success, .node (ents.eraseIdx (childIdx ents k)))
       else if (ents.eraseIdx (childIdx ents k)).length = 1 then
        (.success, ((ents.eraseIdx (childIdx ents k)).headD dEnt).2)
       else (.success, .leaf [])) := by
  simp only [btree_del]
  rw [dif_pos h, hcr]

theorem btree_del_ok {cap : Nat} (k : Key) (t : Btree)
    (h : WFT cap none none t) :
    (k ∉ treeKeys t → btree_del k t = (.keyNotFound, t)) ∧
    (k ∈ treeKeys t → (btree_del k t).1 = .success ∧
      WFT cap none none (btree_del k t).2 ∧
      entsOf (btree_del k t).2 = ersKV (entsOf t) k) := by
  cases t with
  | leaf recs =>
    obtain ⟨hlen, hsort, hin⟩ := h
    constructor
    · intro hm
      simp only [treeKeys, entsOf] at hm
      simp only [btree_del]
      rw [ff_find_eq _ _ hsort]
      simp only [decide_eq_true_eq]
      rw [if_neg hm]
    · intro hm
      simp only [treeKeys, entsOf] at hm
      simp only [btree_del]
      rw [ff_find_eq _ _ hsort]
      simp only [decide_eq_true_eq]
      rw [if_pos hm, eraseIdx_lbIdx_eq_ersKV hsort hm]
      refine ⟨rfl, ⟨?_, ?_, ?_⟩, rfl⟩
      · exact le_trans (ersKV_sublist recs k).length_le hlen
      · exact hsort.sublist ((ersKV_sublist recs k).map Prod.fst)
      · exact fun rr hr => hin rr ((ersKV_sublist recs k).subset hr)
  | node ents =>
    have hk : keysIn (none : Option Key) none k := ⟨trivial, trivial⟩
    obtain ⟨hpos, hcaplen, hwfe⟩ := h
    obtain ⟨pre, e, post, heq, hidx, hwf, hin, hpre, hpost⟩ :=
      wfe_decomp ents none none k hwfe hk
    have hlt : childIdx ents k < ents.length := by
      rw [hidx, heq]
      simp
    have hget : ents.get ⟨childIdx ents k, hlt⟩ = e := by
      have h3 : ∀ (j : Nat) (hj : j < ents.length), j = pre.length →
          ents.get ⟨j, hj⟩ = e := by
        subst heq
        intro j hj hje
        subst hje
        exact get_append_len pre e post hj
      exact h3 _ hlt hidx
    have hDel := delT_spec k e.2 _ _ hwf hin
    rcases hcr : delT k e.2 with _ | c2 | _
    · rw [hcr] at hDel
      simp only [DelOk] at hDel
      rw [btree_del_node_notFound k ents hlt (by rw [hget]; exact hcr)]
      constructor
      · intro _
        rfl
      · intro hm
        exfalso
        simp only [treeKeys, entsOf] at hm
        rw [heq, entsOfL_append, entsOfL_cons, List.map_append,
          List.map_append] at hm
        rcases List.mem_append.mp hm with hA | h2
        · obtain ⟨rr, hr, he⟩ := List.mem_map.mp hA
          exact ltK_irrefl k (he ▸ hpre rr hr)
        rcases List.mem_append.mp h2 with hB | hC
        · exact hDel hB
        · obtain ⟨rr, hr, he⟩ := List.mem_map.mp hC
          exact ltK_irrefl k (he ▸ hpost rr hr)
    · rw [hcr] at hDel
      simp only [DelOk] at hDel
      obtain ⟨hwfc2, hflat⟩ := hDel
      rw [btree_del_node_done k ents hlt c2 (by rw [hget]; exact hcr)]
      rw [hget]
      have hset : ents.set (childIdx ents k) (e.1, c2) =
          pre ++ (e.1, c2) :: post := by
        rw [hidx, heq]
        exact set_append_len pre e (e.1, c2) post
      rw [hset]
      constructor
      · intro hm
        exfalso
        have hmc : k ∉ (entsOf e.2).map Prod.fst := by
          intro hmm
          refine hm ?_
          simp only [treeKeys, entsOf]
          rw [heq, entsOfL_append, entsOfL_cons, List.map_append,
            List.map_append]
          exact List.mem_append.mpr (.inr (List.mem_append.mpr (.inl hmm)))
        rw [delT_notFound k e.2 _ _ hwf hin hmc] at hcr
        cases hcr
      · intro _
        refine ⟨rfl, ⟨?_, ?_, ?_⟩, ?_⟩
        · rw [show (pre ++ (e.1, c2) :: post).length = ents.length from by
            rw [heq]; simp]
          exact hpos
        · rw [show (pre ++ (e.1, c2) :: post).length = ents.length from by
            rw [heq]; simp]
          exact hcaplen
        · exact wfe_glue_replace pre none none e post c2 (heq ▸ hwfe) hwfc2
        · simp only [entsOf]
          rw [heq, entsOfL_append, entsOfL_cons, ← List.append_assoc]
          exact entsOfL_mid_ersKV hpre hpost hflat
    · rw [hcr] at hDel
      simp only [DelOk] at hDel
      obtain ⟨v', hv⟩ := hDel
      rw [btree_del_node_emptied k ents hlt (by rw [hget]; exact hcr)]
      have herase : ents.eraseIdx (childIdx ents k) = pre ++ post := by
        rw [hidx, heq]
        exact eraseIdx_append_len pre e post
      rw [herase]
      have hflat2 : entsOfL (pre ++ post) =
          ersKV (entsOfL (pre ++ e :: post)) k := by
        rw [entsOfL_append]
        rw [show entsOfL pre ++ entsOfL post =
          entsOfL pre ++ [] ++ entsOfL post from by simp]
        refine entsOfL_mid_ersKV hpre hpost ?_
        rw [hv]
        simp [ersKV]
      have hkmem : k ∈ treeKeys (Btree.node ents) := by
        simp only [treeKeys, entsOf]
        rw [heq, entsOfL_append, entsOfL_cons, List.map_append,
          List.map_append]
        refine List.mem_append.mpr (.inr (List.mem_append.mpr (.inl ?_)))
        rw [hv]
        simp
      constructor
      · intro hm
        exact absurd hkmem hm
      · intro _
        by_cases h1 : 1 < (pre ++ post).length
        · rw [if_pos h1]
          have hne : pre ++ post ≠ [] := by
            intro hq
            rw [hq] at h1
            simp at h1
          refine ⟨rfl, ⟨?_, ?_, wfe_glue_erase pre none none e post
            (heq ▸ hwfe) hne⟩, ?_⟩
          · exact List.length_pos.mpr hne
          · have hle : (pre ++ post).length ≤ ents.length := by
              rw [heq]
              simp only [List.length_append, List.length_cons]
              omega
            omega
          · simp only [entsOf]
            rw [heq]
            exact hflat2
        · rw [if_neg h1]
          by_cases h2 : (pre ++ post).length = 1
          · rw [if_pos h2]
            have hne : pre ++ post ≠ [] := by
              intro hq
              rw [hq] at h2
              simp at h2
            have hWE' : WFE cap none none (pre ++ post) :=
              wfe_glue_erase pre none none e post (heq ▸ hwfe) hne
            rcases hpp : pre ++ post with _ | ⟨f, rest⟩
            · exact absurd hpp hne
            · have hrest : rest = [] := by
                rw [hpp] at h2
                simp only [List.length_cons] at h2
                simpa using h2
              subst hrest
              rw [hpp] at hWE' hflat2
              simp only [WFE] at hWE'
              simp only [List.headD_cons]
              refine ⟨trivial, hWE', ?_⟩
              simp only [entsOfL, List.append_nil] at hflat2
              rw [show entsOf (Btree.node ents) = entsOfL ents from rfl, heq]
              exact hflat2
          · rw [if_neg h2]
            have h0 : (pre ++ post).length = 0 := by omega
            obtain ⟨hp1, hp2⟩ :=
              List.append_eq_nil.mp (List.length_eq_zero.mp h0)
            refine ⟨rfl, ⟨by simp, by simp, by simp⟩, ?_⟩
            simp only [entsOf]
            rw [heq, hp1, hp2]
            simp only [List.nil_append, entsOfL, List.append_nil]
            rw [hv]
            simp [ersKV]

theorem lkKV_insKV_self (l : List Rec) (k : Key) (v : Val) :
    lkKV (insKV l k v) k = some (k, v) := by
  induction l with
  | nil => simp [insKV, lkKV]
  | cons r rest ih =>
    simp only [insKV]
    by_cases ha : ltK r.1 k
    · rw [if_pos ha]
      simp only [lkKV]
      rw [if_neg (ltK_ne ha)]
      exact ih
    · rw [if_neg ha]
      simp [lkKV]

theorem lkKV_insKV_other {l : List Rec} {k k2 : Key} {v : Val}
    (hne : k2 ≠ k) : lkKV (insKV l k2 v) k = lkKV l k := by
  induction l with
  | nil => simp [insKV, lkKV, hne]
  | cons r rest ih =>
    simp only [insKV]
    by_cases ha : ltK r.1 k2
    · rw [if_pos ha]
      simp only [lkKV]
      by_cases he : r.1 = k
      · rw [if_pos he, if_pos he]
      · rw [if_neg he, if_neg he]
        exact ih
    · rw [if_neg ha]
      simp only [lkKV]
      rw [if_neg hne]

/-- A sequence of inserts performed through `btree_put`, each operating on
the root left by the previous one. -/
def putList (cap : Nat) (ps : List Rec) (t : Btree) : Btree :=
  ps.foldl (fun acc p => (btree_put cap p.1 p.2 acc).2) t

theorem putList_inv {cap : Nat} {k : Key} {v : Val} (hcap : 4 ≤ cap)
    (ps : List Rec) :
    ∀ t : Btree, (∀ p ∈ ps, p.1 ≠ k) → WFT cap none none t →
    lkKV (entsOf t) k = some (k, v) →
    WFT cap none none (putList cap ps t) ∧
    lkKV (entsOf (putList cap ps t)) k = some (k, v) := by
  induction ps with
  | nil =>
    intro t _ hwf hlk
    exact ⟨hwf, hlk⟩
  | cons p ps' ih =>
    intro t hps hwf hlk
    simp only [putList, List.foldl_cons]
    have hstep := btree_put_ok p.1 p.2 t hcap hwf
    by_cases hm : p.1 ∈ treeKeys t
    · rw [hstep.1 hm]
      exact ih t (fun q hq => hps q (by simp [hq])) hwf hlk
    · obtain ⟨hfl, hwf', hflat⟩ := hstep.2 hm
      have hlk' : lkKV (entsOf (btree_put cap p.1 p.2 t).2) k = some (k, v) := by
        rw [hflat, lkKV_insKV_other (hps p (by simp))]
        exact hlk
      exact ih _ (fun q hq => hps q (by simp [hq])) hwf' hlk'

/-- C1 counterexample: the claim as stated fails when the key is already
present.  `btree_put` of `{[0], [1]}` into a well-formed tree already holding
the record `{[0], [0]}` reports `KEY_EXISTS` without overwriting, so the
following get returns the old record, whose value differs from the value just
put. -/
theorem c1_counterexample :
    WFT 4 none none (.leaf [([0], [0])]) ∧
    btree_get [0] ((btree_put 4 [0] [1] (.leaf [([0], [0])])).2) =
      (.success, some ([0], [0])) ∧
    (([0], [0]) : Rec).2 ≠ [1] := by
  refine ⟨⟨by decide, by decide, fun r hr => ⟨trivial, trivial⟩⟩, ?_, by decide⟩
  have h1 : putT 4 [0] [1] (.leaf [([0], [0])]) = .keyExists := by
    rw [putT_leaf_eq]
    rfl
  simp only [btree_put, h1]
  have h2 : getT [0] (.leaf [([0], [0])]) = some ([0], [0]) := by
    rw [getT]
    rfl
  simp only [btree_get, h2]

/-- C1 (amended): for a fresh key `k`, a put of `{k, v}` followed by any
sequence of puts of other keys and then a get of `k` (with the `EQUAL` flag)
invokes the get callback with `M0_BSC_SUCCESS` and the record `{k, v}`,
regardless of the structural mutations (leaf and internal splits, root
growth) those inserts cause; the node record capacity must be at least 4 so
that the split target choice in `btree_put_split_and_find` is always decided
by a real delimiter key. -/
theorem c1_get_after_put {cap : Nat} (k : Key) (v : Val) (t : Btree)
    (ps : List Rec) (hcap : 4 ≤ cap) (hwf : WFT cap none none t)
    (hfresh : k ∉ treeKeys t) (hps : ∀ p ∈ ps, p.1 ≠ k) :
    btree_get k (putList cap ps (btree_put cap k v t).2) =
      (.success, some (k, v)) := by
  obtain ⟨hfl, hwf1, hflat⟩ := (btree_put_ok k v t hcap hwf).2 hfresh
  have hlk1 : lkKV (entsOf (btree_put cap k v t).2) k = some (k, v) := by
    rw [hflat]
    exact lkKV_insKV_self _ _ _
  obtain ⟨hwfF, hlkF⟩ := putList_inv hcap ps _ hps hwf1 hlk1
  rw [show btree_get k (putList cap ps (btree_put cap k v t).2) =
    (match getT k (putList cap ps (btree_put cap k v t).2) with
     | some r => (BFlags.success, some r)
     | none => (.keyNotFound, none)) from rfl]
  rw [getT_spec _ _ _ k hwfF ⟨trivial, trivial⟩, hlkF]

theorem c1_get_after_put_witness :
    (4 ≤ 4 ∧ WFT 4 none none (.leaf [([1], [2])]) ∧
      ([0] : Key) ∉ treeKeys (.leaf [([1], [2])]) ∧
      ∀ p ∈ [(([2], [3]) : Rec)], p.1 ≠ [0]) ∧
    btree_get [0]
        (putList 4 [([2], [3])] (btree_put 4 [0] [7] (.leaf [([1], [2])])).2) =
      (.success, some ([0], [7])) := by
  refine ⟨⟨by decide, ⟨by decide, by decide, fun r hr => ⟨trivial, trivial⟩⟩,
    by decide, by decide⟩, ?_⟩
  exact c1_get_after_put [0] [7] (.leaf [([1], [2])]) [([2], [3])] (by decide)
    ⟨by decide, by decide, fun r hr => ⟨trivial, trivial⟩⟩ (by decide)
    (by decide)

/-- C5: a put whose key is already present anywhere in a well-formed tree
delivers `M0_BSC_KEY_EXISTS` to the callback and returns the tree object
unchanged: no node is made, deleted or moved and no record is written. -/
theorem c5_put_existing_key {cap : Nat} (k : Key) (v : Val) (t : Btree)
    (hwf : WFT cap none none t) (hmem : k ∈ treeKeys t) :
    btree_put cap k v t = (.keyExists, t) := by
  simp only [treeKeys] at hmem
  rw [btree_put, putT_keyExists k v t none none hwf ⟨trivial, trivial⟩ hmem]

theorem c5_put_existing_key_witness :
    (WFT 4 none none (.leaf [([0], [0])]) ∧
      ([0] : Key) ∈ treeKeys (.leaf [([0], [0])])) ∧
    btree_put 4 [0] [9] (.leaf [([0], [0])]) =
      (.keyExists, .leaf [([0], [0])]) := by
  refine ⟨⟨⟨by decide, by decide, fun r hr => ⟨trivial, trivial⟩⟩,
    by decide⟩, ?_⟩
  exact @c5_put_existing_key 4 [0] [9] (.leaf [([0], [0])])
    ⟨by decide, by decide, fun r hr => ⟨trivial, trivial⟩⟩ (by decide)

/-- C7: deleting the same key twice in succession makes the second
`btree_del` deliver `M0_BSC_KEY_NOT_FOUND` and return exactly the tree left
by the first delete, whatever underflow resolution (record removal from
parents, root collapse, emptying of the root) the first delete performed. -/
theorem c7_delete_idempotent {cap : Nat} (k : Key) (t : Btree)
    (hwf : WFT cap none none t) :
    btree_del k (btree_del k t).2 = (.keyNotFound, (btree_del k t).2) := by
  have h := btree_del_ok k t hwf
  by_cases hm : k ∈ treeKeys t
  · obtain ⟨hfl, hwf1, hflat⟩ := h.2 hm
    have hsort1 : ((entsOf t).map Prod.fst).Pairwise ltK :=
      (wft_flat t none none hwf).1
    have hnm : k ∉ treeKeys (btree_del k t).2 := by
      simp only [treeKeys]
      rw [hflat]
      exact ersKV_not_mem hsort1
    exact (btree_del_ok k _ hwf1).1 hnm
  · rw [h.1 hm]
    exact h.1 hm

theorem c7_delete_idempotent_witness :
    WFT 4 none none (.leaf [([0], [1])]) ∧
    btree_del [0] (btree_del [0] (.leaf [([0], [1])])).2 =
      (.keyNotFound, (btree_del [0] (.leaf [([0], [1])])).2) := by
  refine ⟨⟨by decide, by decide, fun r hr => ⟨trivial, trivial⟩⟩, ?_⟩
  exact @c7_delete_idempotent 4 [0] (.leaf [([0], [1])])
    ⟨by decide, by decide, fun r hr => ⟨trivial, trivial⟩⟩
